import Mathlib

/-!
Verification of `molecule/utilities.py`.

The core of the module is `merge_dicts`, a recursive merge of two nested
Python dictionaries, together with `format_instance_name`, a lookup/format
helper over a list of instance records.  We embed the Python values and
functions shallowly:

* a Python value handled by `merge_dicts` is either a `dict` (modelled as an
  association list in insertion order, since Python dicts preserve insertion
  order and `for key in b` iterates in that order) or any other value, which
  `merge_dicts` treats as an opaque leaf compared only for equality
  (`PyVal.leaf` over an arbitrary type `α` with decidable equality);
* in-place mutation of the target dict `a` is modelled by explicit state
  passing: each step returns the updated association list;
* a raised `LookupError` is modelled by an `Option String` component of the
  result carrying the message of the exception (`none` = no exception); the
  returned association list is the state of `a` at the moment the exception
  escapes, since in Python the mutations performed before the raise persist.

For the claims about object identity (deep copy versus aliasing) a second
embedding `HVal` additionally tags every dict node with the identity of the
underlying Python object (a `Nat`), so that `copy.deepcopy` (fresh ids) is
distinguishable from plain assignment `a[key] = b[key]` (same ids), and
mutation of one Python object can be modelled (`setInObjD`).
-/

namespace Molecule

/-- A Python value as seen by `merge_dicts`: either a `dict` (association
list of string keys, in insertion order) or any non-dict value, opaque to the
merge except for equality (`leaf`). -/
inductive PyVal (α : Type) where
  | leaf : α → PyVal α
  | dict : List (String × PyVal α) → PyVal α

/-- `key in a` / `a[key]` on a Python dict: the unique binding of `key`
(we read the first binding; a well-formed dict has distinct keys). -/
def lookupKey {α : Type} (k : String) : List (String × PyVal α) → Option (PyVal α)
  | [] => none
  | (k', v) :: rest => if k' = k then some v else lookupKey k rest

/-- `a[key] = v` on a Python dict: replace the binding in place if the key is
present (its position is kept), otherwise append the new binding (Python
appends new keys in insertion order). -/
def setKey {α : Type} (k : String) (v : PyVal α) :
    List (String × PyVal α) → List (String × PyVal α)
  | [] => [(k, v)]
  | (k', v') :: rest => if k' = k then (k, v) :: rest else (k', v') :: setKey k v rest

/-- Python `==` as used in `merge_dicts` (`a[key] == b[key]`).  The comparison
is only ever evaluated after the `isinstance(a[key], dict) and
isinstance(b[key], dict)` branch failed, so at the call site at least one
side is a non-dict; a dict never compares equal to a non-dict, and two
non-dict values compare by their own equality. -/
def pyEq {α : Type} [DecidableEq α] : PyVal α → PyVal α → Bool
  | .leaf x, .leaf y => decide (x = y)
  | _, _ => false

/-- `isinstance(v, dict)`. -/
def isDict {α : Type} : PyVal α → Bool
  | .leaf _ => false
  | .dict _ => true

/-- The message of the `LookupError` raised by `merge_dicts`:
`"Conflict at '{path}'".format(path='.'.join(path + [str(key)]))` where the
argument below is already `path + [str(key)]`. -/
def conflictMsg (p : List String) : String :=
  "Conflict at \x27" ++ String.intercalate "." p ++ "\x27"

/-- `merge_dicts(a, b, raise_conflicts, path)` from `molecule/utilities.py`,
lines 36-77.  Iterates over the keys of `b` in order; for each key:
dig deeper when both values are dicts (the recursion mutates `a[key]` in
place, modelled by `setKey`), skip identical values, otherwise raise a
`LookupError` naming the dotted path when `raise_conflicts` is set, or
replace `a[key]` with `b[key]`; keys absent from `a` are imported, with
`copy.deepcopy` applied when `b[key]` is a dict (identity-free here; the
`HVal` model below distinguishes the copy).  The result is the final state
of `a` paired with the raised message, if any. -/
def merge_dicts {α : Type} [DecidableEq α] (rc : Bool) (path : List String)
    (a : List (String × PyVal α)) :
    List (String × PyVal α) → List (String × PyVal α) × Option String
  | [] => (a, none)
  | (k, bv) :: rest =>
    match lookupKey k a with
    | some av =>
      match av, bv with
      | .dict ad, .dict bd =>
        let inner := merge_dicts rc (path ++ [k]) ad bd
        let a' := setKey k (.dict inner.1) a
        match inner.2 with
        | some e => (a', some e)
        | none => merge_dicts rc path a' rest
      | _, _ =>
        if pyEq av bv then merge_dicts rc path a rest
        else if rc then (a, some (conflictMsg (path ++ [k])))
        else merge_dicts rc path (setKey k bv a) rest
    | none => merge_dicts rc path (setKey k bv a) rest
  termination_by b => sizeOf b

/-- The keys of a dict are pairwise distinct (true of every Python dict). -/
def nodupKeys {β : Type} (l : List (String × β)) : Prop :=
  l.Pairwise (fun x y => x.1 ≠ y.1)

/-- Recursive well-formedness of a dict: at every level the keys are
pairwise distinct. -/
def wfD {α : Type} : List (String × PyVal α) → Bool
  | [] => true
  | (k, v) :: rest =>
    (decide (∀ kv ∈ rest, kv.1 ≠ k)) &&
    (match v with
     | .leaf _ => true
     | .dict es => wfD es) && wfD rest
  termination_by es => sizeOf es

/-- There is a conflict between dicts `a` and `b`: some key of `b`, followed
along matching nested dicts, is bound in `a` to a value that is neither
equal to `b`'s value nor a dict matched with a dict. -/
def hasConfD {α : Type} [DecidableEq α] (a : List (String × PyVal α)) :
    List (String × PyVal α) → Bool
  | [] => false
  | (k, bv) :: rest =>
    (match lookupKey k a, bv with
     | some (.dict ad), .dict bd => hasConfD ad bd
     | some av, bv' => !pyEq av bv'
     | none, _ => false) || hasConfD a rest
  termination_by b => sizeOf b

/-- `q` is the path of a conflict between `a` and `b`: following the keys of
`q` through matching nested dicts of both trees ends at a key bound in both
whose two values are not both dicts and are unequal. -/
def confPathD {α : Type} [DecidableEq α] (a b : List (String × PyVal α)) :
    List String → Bool
  | [] => false
  | k :: p =>
    match lookupKey k a, lookupKey k b with
    | some av, some bv =>
      match av, bv, p with
      | .dict ad, .dict bd, _ => confPathD ad bd p
      | av', bv', [] => !pyEq av' bv'
      | _, _, _ => false
    | _, _ => false

/-- Fuel-bounded variant of `merge_dicts`: structurally recursive on `fuel`,
returning `none` when the fuel runs out before the recursion finishes.  Used
to express that the recursion of `merge_dicts` is well-founded with depth
bounded by the size of the source tree. -/
def merge_dicts_fuel {α : Type} [DecidableEq α] :
    Nat → Bool → List String → List (String × PyVal α) →
    List (String × PyVal α) → Option (List (String × PyVal α) × Option String)
  | 0, _, _, _, _ => none
  | _ + 1, _, _, a, [] => some (a, none)
  | fuel + 1, rc, path, a, (k, bv) :: rest =>
    match lookupKey k a with
    | some av =>
      match av, bv with
      | .dict ad, .dict bd =>
        match merge_dicts_fuel fuel rc (path ++ [k]) ad bd with
        | none => none
        | some inner =>
          let a' := setKey k (.dict inner.1) a
          match inner.2 with
          | some e => some (a', some e)
          | none => merge_dicts_fuel fuel rc path a' rest
      | _, _ =>
        if pyEq av bv then merge_dicts_fuel fuel rc path a rest
        else if rc then some (a, some (conflictMsg (path ++ [k])))
        else merge_dicts_fuel fuel rc path (setKey k bv a) rest
    | none => merge_dicts_fuel fuel rc path (setKey k bv a) rest

/-- A Python value with object identity: every dict node carries the identity
(`id()`) of the underlying Python dict object, a `Nat`.  Two occurrences of
the same id denote the same heap object, so assigning `a[key] = b[key]`
keeps the id while `copy.deepcopy` allocates fresh ids. -/
inductive HVal (α : Type) where
  | leaf : α → HVal α
  | dict : Nat → List (String × HVal α) → HVal α

/-- `key in a` / `a[key]` on an identity-tagged dict. -/
def lookupKeyH {α : Type} (k : String) : List (String × HVal α) → Option (HVal α)
  | [] => none
  | (k', v) :: rest => if k' = k then some v else lookupKeyH k rest

/-- `a[key] = v` on an identity-tagged dict. -/
def setKeyH {α : Type} (k : String) (v : HVal α) :
    List (String × HVal α) → List (String × HVal α)
  | [] => [(k, v)]
  | (k', v') :: rest => if k' = k then (k, v) :: rest else (k', v') :: setKeyH k v rest

/-- Forget the object identities of the entries of a dict, keeping the value
structure. -/
def eraseD {α : Type} : List (String × HVal α) → List (String × PyVal α)
  | [] => []
  | (k, .leaf x) :: rest => (k, .leaf x) :: eraseD rest
  | (k, .dict _ es) :: rest => (k, .dict (eraseD es)) :: eraseD rest
  termination_by l => sizeOf l

/-- Forget the object identities of a value. -/
def eraseV {α : Type} : HVal α → PyVal α
  | .leaf x => .leaf x
  | .dict _ es => .dict (eraseD es)

/-- The identities of all dict objects reachable from the entries of a dict. -/
def idsD {α : Type} : List (String × HVal α) → List Nat
  | [] => []
  | (_, .leaf _) :: rest => idsD rest
  | (_, .dict i es) :: rest => i :: (idsD es ++ idsD rest)
  termination_by l => sizeOf l

/-- The identities of all dict objects reachable from a value. -/
def idsV {α : Type} : HVal α → List Nat
  | .leaf _ => []
  | .dict i es => i :: idsD es

/-- `copy.deepcopy` of the entries of a dict, with `c` the next unused object
identity: every copied dict node receives a fresh id, and the next unused id
is returned alongside the copy. -/
def deepcopyD {α : Type} (c : Nat) : List (String × HVal α) →
    List (String × HVal α) × Nat
  | [] => ([], c)
  | (k, .leaf x) :: rest =>
    let r := deepcopyD c rest
    ((k, .leaf x) :: r.1, r.2)
  | (k, .dict _ es) :: rest =>
    let e := deepcopyD c es
    let r := deepcopyD (e.2 + 1) rest
    ((k, .dict e.2 e.1) :: r.1, r.2)
  termination_by l => sizeOf l

/-- `copy.deepcopy(v)` with `c` the next unused object identity. -/
def deepcopyV {α : Type} (c : Nat) : HVal α → HVal α × Nat
  | .leaf x => (.leaf x, c)
  | .dict _ es =>
    let e := deepcopyD c es
    (.dict e.2 e.1, e.2 + 1)

/-- Mutation of one Python dict object: `obj[ky] = w` performed on the object
with identity `i`.  Every view of the heap containing that object sees the
update, so the update is applied at every dict node carrying identity `i`. -/
def setInObjD {α : Type} (i : Nat) (ky : String) (w : HVal α) :
    List (String × HVal α) → List (String × HVal α)
  | [] => []
  | (k, .leaf x) :: rest => (k, .leaf x) :: setInObjD i ky w rest
  | (k, .dict j es) :: rest =>
    let es' := setInObjD i ky w es
    (k, .dict j (if j = i then setKeyH ky w es' else es')) :: setInObjD i ky w rest
  termination_by l => sizeOf l

/-- `isinstance(v, dict)` on identity-tagged values. -/
def isDictH {α : Type} : HVal α → Bool
  | .leaf _ => false
  | .dict _ _ => true

/-- The right-hand side of the import of an absent key, line 73-74 of
`molecule/utilities.py`: `copy.deepcopy(b[key]) if isinstance(b[key], dict)
else b[key]`, with the allocation counter threaded through (a non-dict value
is taken as-is — aliased — and allocates nothing). -/
def importVal {α : Type} (c : Nat) (bv : HVal α) : HVal α × Nat :=
  if isDictH bv then deepcopyV c bv else (bv, c)

/-- `merge_dicts` over identity-tagged values: the same algorithm as
`merge_dicts` (lines 36-77 of `molecule/utilities.py`) with the identity of
every dict object tracked, and the allocation counter `c` (the next unused
object identity) threaded through.  The recursive call mutates the dict
object `a[key]` in place, so that object keeps its id; the overwrite
`a[key] = b[key]` aliases `b`'s value, ids included; the import of an absent
key applies `copy.deepcopy` (fresh ids) exactly when `b[key]` is a dict
(`importVal`).  Python `==` ignores identities, so the equality test
compares erasures. -/
def merge_dicts_tr {α : Type} [DecidableEq α] (rc : Bool) (path : List String)
    (c : Nat) (a : List (String × HVal α)) :
    List (String × HVal α) → List (String × HVal α) × Nat × Option String
  | [] => (a, c, none)
  | (k, bv) :: rest =>
    match lookupKeyH k a with
    | some av =>
      match av, bv with
      | .dict i ad, .dict _ bd =>
        let inner := merge_dicts_tr rc (path ++ [k]) c ad bd
        let a' := setKeyH k (.dict i inner.1) a
        match inner.2.2 with
        | some e => (a', inner.2.1, some e)
        | none => merge_dicts_tr rc path inner.2.1 a' rest
      | _, _ =>
        if pyEq (eraseV av) (eraseV bv) then merge_dicts_tr rc path c a rest
        else if rc then (a, c, some (conflictMsg (path ++ [k])))
        else merge_dicts_tr rc path c (setKeyH k bv a) rest
    | none =>
      let cp := importVal c bv
      merge_dicts_tr rc path cp.2 (setKeyH k cp.1 a) rest
  termination_by b => sizeOf b

/-- An instance record as consumed by `format_instance_name`: a dict that may
or may not carry a `name` key (`none` models a missing key, on which
`instance["name"]` raises `KeyError`), and may carry an `options` dict whose
values are consulted only for truthiness (so they are modelled as `Bool`);
`options = none` models both a missing `options` key and an `options` of
`None`, the two cases on which `working_instance.get("options") is None`
holds. -/
structure Inst where
  name : Option String
  options : Option (List (String × Bool))

/-- Truthiness of `opts.get(k)`: `False` for a missing key (`get` returns
`None`), otherwise the truthiness of the stored value. -/
def getOpt (k : String) : List (String × Bool) → Bool
  | [] => false
  | (k', v) :: rest => if k' = k then v else getOpt k rest

/-- The search loop of `format_instance_name`: scan the records in order,
stopping at the first whose `name` field equals `nm`; reading `instance["name"]`
of a record without a `name` key raises `KeyError` (modelled as `.error ()`). -/
def findInst (nm : String) : List Inst → Except Unit (Option Inst)
  | [] => .ok none
  | i :: rest =>
    match i.name with
    | none => .error ()
    | some n => if n = nm then .ok (some i) else findInst nm rest

/-- `format_instance_name(name, platform, instances)` from
`molecule/utilities.py`, lines 122-151: find the first instance record whose
`name` equals the given name (`KeyError` propagates as `.error ()`); return
`None` if there is no match; return the name unchanged if the match has no
options; return `name + "-" + platform` if the match's options make
`append_platform_to_hostname` truthy; otherwise return the name unchanged. -/
def format_instance_name (nm platform : String) (instances : List Inst) :
    Except Unit (Option String) :=
  match findInst nm instances with
  | .error e => .error e
  | .ok none => .ok none
  | .ok (some working) =>
    match working.options with
    | none => .ok (some nm)
    | some opts =>
      if getOpt "append_platform_to_hostname" opts then .ok (some (nm ++ "-" ++ platform))
      else .ok (some nm)

/-! ### Basic lemmas about dict primitives -/

theorem lookup_setKey_self {α : Type} (k : String) (v : PyVal α) :
    ∀ d, lookupKey k (setKey k v d) = some v := by
  intro d
  induction d with
  | nil => simp [setKey, lookupKey]
  | cons hd tl ih =>
    obtain ⟨k', v'⟩ := hd
    by_cases h : k' = k <;> simp [setKey, lookupKey, h, ih]

theorem lookup_setKey_ne {α : Type} {k kw : String} (hne : kw ≠ k) (v : PyVal α) :
    ∀ d, lookupKey k (setKey kw v d) = lookupKey k d := by
  intro d
  induction d with
  | nil => simp [setKey, lookupKey, hne]
  | cons hd tl ih =>
    obtain ⟨k', v'⟩ := hd
    by_cases h : k' = kw
    · subst h; simp [setKey, lookupKey, hne, ih]
    · by_cases h2 : k' = k <;> simp [setKey, lookupKey, h, h2, hne, Ne.symm hne, ih]

theorem setKey_of_lookup {α : Type} {k : String} {v : PyVal α} :
    ∀ {d}, lookupKey k d = some v → setKey k v d = d := by
  intro d
  induction d with
  | nil => simp [lookupKey]
  | cons hd tl ih =>
    obtain ⟨k', v'⟩ := hd
    by_cases h : k' = k
    · subst h; simp [lookupKey, setKey]; intro hv; exact hv.symm
    · simp [lookupKey, setKey, h]; exact fun hv => ih hv

theorem lookup_mem_keys {α : Type} {k : String} {v : PyVal α} :
    ∀ {d}, lookupKey k d = some v → ∃ kv ∈ d, kv.1 = k := by
  intro d
  induction d with
  | nil => simp [lookupKey]
  | cons hd tl ih =>
    obtain ⟨k', v'⟩ := hd
    by_cases h : k' = k
    · intro _; exact ⟨(k', v'), by simp, h⟩
    · simp only [lookupKey, h, if_false]
      intro hl
      obtain ⟨kv, hm, hk⟩ := ih hl
      exact ⟨kv, by simp [hm], hk⟩

theorem pyEq_eq {α : Type} [DecidableEq α] {x y : PyVal α} (h : pyEq x y = true) :
    x = y := by
  cases x <;> cases y <;> simp_all [pyEq]

theorem pyEq_leaf_refl {α : Type} [DecidableEq α] (x : α) :
    pyEq (PyVal.leaf x) (PyVal.leaf x) = true := by simp [pyEq]

/-! ### Step equations for `merge_dicts` -/

theorem merge_nil {α : Type} [DecidableEq α] (rc : Bool) (p : List String)
    (a : List (String × PyVal α)) : merge_dicts rc p a [] = (a, none) := by
  simp [merge_dicts]

theorem merge_cons_absent {α : Type} [DecidableEq α] {rc : Bool} {p : List String}
    {a : List (String × PyVal α)} {k : String} {bv : PyVal α}
    {rest : List (String × PyVal α)} (h : lookupKey k a = none) :
    merge_dicts rc p a ((k, bv) :: rest) = merge_dicts rc p (setKey k bv a) rest := by
  rw [merge_dicts, h]

theorem merge_cons_dd {α : Type} [DecidableEq α] {rc : Bool} {p : List String}
    {a ad bd : List (String × PyVal α)} {k : String}
    {rest : List (String × PyVal α)} (h : lookupKey k a = some (.dict ad)) :
    merge_dicts rc p a ((k, .dict bd) :: rest) =
      (match (merge_dicts rc (p ++ [k]) ad bd).2 with
       | some e => (setKey k (.dict (merge_dicts rc (p ++ [k]) ad bd).1) a, some e)
       | none =>
         merge_dicts rc p (setKey k (.dict (merge_dicts rc (p ++ [k]) ad bd).1) a) rest) := by
  rw [merge_dicts, h]

theorem merge_cons_skip {α : Type} [DecidableEq α] {rc : Bool} {p : List String}
    {a : List (String × PyVal α)} {k : String} {av bv : PyVal α}
    {rest : List (String × PyVal α)} (h : lookupKey k a = some av)
    (hnd : (isDict av && isDict bv) = false) (he : pyEq av bv = true) :
    merge_dicts rc p a ((k, bv) :: rest) = merge_dicts rc p a rest := by
  cases av <;> cases bv <;> rw [merge_dicts, h] <;> simp_all [isDict, pyEq]

theorem merge_cons_raise {α : Type} [DecidableEq α] {p : List String}
    {a : List (String × PyVal α)} {k : String} {av bv : PyVal α}
    {rest : List (String × PyVal α)} (h : lookupKey k a = some av)
    (hnd : (isDict av && isDict bv) = false) (he : pyEq av bv = false) :
    merge_dicts true p a ((k, bv) :: rest) = (a, some (conflictMsg (p ++ [k]))) := by
  cases av <;> cases bv <;> rw [merge_dicts, h] <;> simp_all [isDict, pyEq]

theorem merge_cons_ow {α : Type} [DecidableEq α] {p : List String}
    {a : List (String × PyVal α)} {k : String} {av bv : PyVal α}
    {rest : List (String × PyVal α)} (h : lookupKey k a = some av)
    (hnd : (isDict av && isDict bv) = false) (he : pyEq av bv = false) :
    merge_dicts false p a ((k, bv) :: rest) =
      merge_dicts false p (setKey k bv a) rest := by
  cases av <;> cases bv <;> rw [merge_dicts, h] <;> simp_all [isDict, pyEq]

theorem merge_cons_ndd {α : Type} [DecidableEq α] {rc : Bool} {p : List String}
    {a : List (String × PyVal α)} {k : String} {av bv : PyVal α}
    {rest : List (String × PyVal α)} (h : lookupKey k a = some av)
    (hnd : (isDict av && isDict bv) = false) :
    merge_dicts rc p a ((k, bv) :: rest) =
      (if pyEq av bv then merge_dicts rc p a rest
       else if rc then (a, some (conflictMsg (p ++ [k])))
       else merge_dicts rc p (setKey k bv a) rest) := by
  cases av <;> cases bv <;> rw [merge_dicts, h] <;> simp_all [isDict, pyEq]

/-- Merging never touches the binding of a key that does not occur among the
keys of the source entries: the final state of `a` at that key is its
initial state, whether or not a conflict was raised along the way. -/
theorem merge_lookup_stable {α : Type} [DecidableEq α] {k : String} :
    ∀ (b : List (String × PyVal α)) (rc : Bool) (p : List String)
      (a : List (String × PyVal α)),
    (∀ kv ∈ b, kv.1 ≠ k) → lookupKey k (merge_dicts rc p a b).1 = lookupKey k a := by
  intro b
  induction b with
  | nil => intro rc p a _; simp [merge_nil]
  | cons hd rest ih =>
    intro rc p a hkeys
    obtain ⟨k1, bv⟩ := hd
    have hk1 : k1 ≠ k := hkeys (k1, bv) (by simp)
    have hrest : ∀ kv ∈ rest, kv.1 ≠ k := fun kv hm => hkeys kv (by simp [hm])
    cases hl : lookupKey k1 a with
    | none =>
      rw [merge_cons_absent hl, ih rc p _ hrest, lookup_setKey_ne hk1]
    | some av =>
      cases av with
      | leaf x =>
        rw [merge_cons_ndd hl (by simp [isDict])]
        cases hpe : pyEq (PyVal.leaf x) bv with
        | true => simp only [if_true]; exact ih rc p a hrest
        | false =>
          cases rc with
          | true => simp
          | false =>
            simp only [Bool.false_eq_true, if_false]
            rw [ih false p _ hrest, lookup_setKey_ne hk1]
      | dict ad =>
        cases bv with
        | leaf y =>
          rw [merge_cons_ndd hl (by simp [isDict])]
          simp only [pyEq, Bool.false_eq_true, if_false]
          cases rc with
          | true => simp
          | false =>
            simp only [Bool.false_eq_true, if_false]
            rw [ih false p _ hrest, lookup_setKey_ne hk1]
        | dict bd =>
          rw [merge_cons_dd hl]
          cases he : (merge_dicts rc (p ++ [k1]) ad bd).2 with
          | some e => simp [lookup_setKey_ne hk1]
          | none =>
            simp only []
            rw [ih rc p _ hrest, lookup_setKey_ne hk1]

/-- With `raise_conflicts` unset, `merge_dicts` never raises. -/
theorem merge_ow_no_raise_aux {α : Type} [DecidableEq α] :
    ∀ (n : Nat) (b : List (String × PyVal α)), sizeOf b ≤ n →
    ∀ (p : List String) (a : List (String × PyVal α)),
      (merge_dicts false p a b).2 = none := by
  intro n
  induction n with
  | zero => intro b hb; cases b <;> simp_all
  | succ m ih =>
    intro b hb p a
    cases b with
    | nil => simp [merge_nil]
    | cons hd rest =>
      obtain ⟨k1, bv⟩ := hd
      have hrest : sizeOf rest ≤ m := by simp at hb; omega
      cases hl : lookupKey k1 a with
      | none => rw [merge_cons_absent hl]; exact ih rest hrest p _
      | some av =>
        cases av with
        | leaf x =>
          rw [merge_cons_ndd hl (by simp [isDict])]
          cases hpe : pyEq (PyVal.leaf x) bv with
          | true => simp only [if_true]; exact ih rest hrest p a
          | false =>
            simp only [Bool.false_eq_true, if_false]
            exact ih rest hrest p _
        | dict ad =>
          cases bv with
          | leaf y =>
            rw [merge_cons_ndd hl (by simp [isDict])]
            simp only [pyEq, Bool.false_eq_true, if_false]
            exact ih rest hrest p _
          | dict bd =>
            have hbd : sizeOf bd ≤ m := by simp at hb; omega
            rw [merge_cons_dd hl]
            have hin := ih bd hbd (p ++ [k1]) ad
            rw [hin]
            exact ih rest hrest p _

theorem merge_ow_no_raise {α : Type} [DecidableEq α] (p : List String)
    (a b : List (String × PyVal α)) : (merge_dicts false p a b).2 = none :=
  merge_ow_no_raise_aux (sizeOf b) b (Nat.le_refl _) p a

/-- Merging a concatenation of source entry lists processes the first list
and, when no conflict was raised, continues with the second on the updated
target; a conflict raised in the first list short-circuits the second. -/
theorem merge_append {α : Type} [DecidableEq α] (rc : Bool) (p : List String) :
    ∀ (l1 l2 : List (String × PyVal α)) (a : List (String × PyVal α)),
    merge_dicts rc p a (l1 ++ l2) =
      (match merge_dicts rc p a l1 with
       | (a1, some e) => (a1, some e)
       | (a1, none) => merge_dicts rc p a1 l2) := by
  intro l1
  induction l1 with
  | nil => intro l2 a; simp [merge_nil]
  | cons hd rest ih =>
    intro l2 a
    obtain ⟨k1, bv⟩ := hd
    cases hl : lookupKey k1 a with
    | none => rw [List.cons_append, merge_cons_absent hl, merge_cons_absent hl, ih]
    | some av =>
      cases av with
      | leaf x =>
        rw [List.cons_append, merge_cons_ndd hl (by simp [isDict]),
          merge_cons_ndd hl (by simp [isDict])]
        cases hpe : pyEq (PyVal.leaf x) bv with
        | true => simp only [if_true]; rw [ih]
        | false =>
          cases rc with
          | true => simp
          | false => simp only [Bool.false_eq_true, if_false]; rw [ih]
      | dict ad =>
        cases bv with
        | leaf y =>
          rw [List.cons_append, merge_cons_ndd hl (by simp [isDict]),
            merge_cons_ndd hl (by simp [isDict])]
          simp only [pyEq, Bool.false_eq_true, if_false]
          cases rc with
          | true => simp
          | false => simp only [Bool.false_eq_true, if_false]; rw [ih]
        | dict bd =>
          rw [List.cons_append, merge_cons_dd hl, merge_cons_dd hl]
          cases he : (merge_dicts rc (p ++ [k1]) ad bd).2 with
          | some e => simp
          | none => simp only []; rw [ih]

/-! ### Per-key behaviour of the merge -/

theorem nodupKeys_cons {β : Type} {hd : String × β} {rest : List (String × β)}
    (h : nodupKeys (hd :: rest)) :
    (∀ kv ∈ rest, kv.1 ≠ hd.1) ∧ nodupKeys rest := by
  rw [nodupKeys, List.pairwise_cons] at h
  exact ⟨fun kv hm => (h.1 kv hm).symm, h.2⟩

/-- A key bound in both dicts to unequal values, not both dicts, ends up
bound to the source value after an overwriting merge. -/
theorem merge_ow_wins_aux {α : Type} [DecidableEq α] {k : String} {bv : PyVal α} :
    ∀ (b : List (String × PyVal α)) (p : List String)
      (a : List (String × PyVal α)) (av : PyVal α),
    nodupKeys b → lookupKey k a = some av → lookupKey k b = some bv →
    (isDict av && isDict bv) = false → av ≠ bv →
    lookupKey k (merge_dicts false p a b).1 = some bv := by
  intro b
  induction b with
  | nil => intro p a av _ _ hb; simp [lookupKey] at hb
  | cons hd rest ih =>
    intro p a av hnd ha hb hboth hne
    obtain ⟨k1, bv1⟩ := hd
    obtain ⟨hdk, hndrest⟩ := nodupKeys_cons hnd
    by_cases hk : k1 = k
    · subst hk
      have hbv : bv1 = bv := by simpa [lookupKey] using hb
      subst hbv
      have hpe : pyEq av bv1 = false := by
        cases hpe : pyEq av bv1 with
        | true => exact absurd (pyEq_eq hpe) hne
        | false => rfl
      rw [merge_cons_ndd ha hboth, hpe]
      simp only [Bool.false_eq_true, if_false]
      rw [merge_lookup_stable rest false p _ hdk, lookup_setKey_self]
    · have hbrest : lookupKey k rest = some bv := by
        simpa [lookupKey, hk] using hb
      cases hl : lookupKey k1 a with
      | none =>
        rw [merge_cons_absent hl]
        exact ih p _ av hndrest (by rw [lookup_setKey_ne hk, ha]) hbrest hboth hne
      | some av1 =>
        cases av1 with
        | leaf x =>
          rw [merge_cons_ndd hl (by simp [isDict])]
          cases hpe : pyEq (PyVal.leaf x) bv1 with
          | true => simp only [if_true]; exact ih p a av hndrest ha hbrest hboth hne
          | false =>
            simp only [Bool.false_eq_true, if_false]
            exact ih p _ av hndrest (by rw [lookup_setKey_ne hk, ha]) hbrest hboth hne
        | dict ad =>
          cases bv1 with
          | leaf y =>
            rw [merge_cons_ndd hl (by simp [isDict])]
            simp only [pyEq, Bool.false_eq_true, if_false]
            exact ih p _ av hndrest (by rw [lookup_setKey_ne hk, ha]) hbrest hboth hne
          | dict bd =>
            rw [merge_cons_dd hl]
            rw [merge_ow_no_raise (p ++ [k1]) ad bd]
            exact ih p _ av hndrest (by rw [lookup_setKey_ne hk, ha]) hbrest hboth hne

/-- A key bound in both dicts to the same non-dict value keeps its binding in
the target under either policy, whether or not the merge raises elsewhere. -/
theorem merge_equal_stable_aux {α : Type} [DecidableEq α] {k : String} {v : PyVal α} :
    ∀ (b : List (String × PyVal α)) (rc : Bool) (p : List String)
      (a : List (String × PyVal α)),
    nodupKeys b → lookupKey k a = some v → lookupKey k b = some v →
    isDict v = false →
    lookupKey k (merge_dicts rc p a b).1 = some v := by
  intro b
  induction b with
  | nil => intro rc p a _ _ hb; simp [lookupKey] at hb
  | cons hd rest ih =>
    intro rc p a hnd ha hb hdv
    obtain ⟨k1, bv1⟩ := hd
    obtain ⟨hdk, hndrest⟩ := nodupKeys_cons hnd
    by_cases hk : k1 = k
    · subst hk
      have hbv : bv1 = v := by simpa [lookupKey] using hb
      subst hbv
      obtain ⟨x, rfl⟩ : ∃ x, bv1 = PyVal.leaf x := by
        cases bv1 with
        | leaf x => exact ⟨x, rfl⟩
        | dict es => simp [isDict] at hdv
      rw [merge_cons_ndd ha (by simp [isDict]), pyEq_leaf_refl]
      simp only [if_true]
      rw [merge_lookup_stable rest rc p _ hdk, ha]
    · have hbrest : lookupKey k rest = some v := by
        simpa [lookupKey, hk] using hb
      cases hl : lookupKey k1 a with
      | none =>
        rw [merge_cons_absent hl]
        exact ih rc p _ hndrest (by rw [lookup_setKey_ne hk, ha]) hbrest hdv
      | some av1 =>
        cases av1 with
        | leaf x =>
          rw [merge_cons_ndd hl (by simp [isDict])]
          cases hpe : pyEq (PyVal.leaf x) bv1 with
          | true => simp only [if_true]; exact ih rc p a hndrest ha hbrest hdv
          | false =>
            cases rc with
            | true => simpa using ha
            | false =>
              simp only [Bool.false_eq_true, if_false]
              exact ih false p _ hndrest (by rw [lookup_setKey_ne hk, ha]) hbrest hdv
        | dict ad =>
          cases bv1 with
          | leaf y =>
            rw [merge_cons_ndd hl (by simp [isDict])]
            simp only [pyEq, Bool.false_eq_true, if_false]
            cases rc with
            | true => simpa using ha
            | false =>
              simp only [Bool.false_eq_true, if_false]
              exact ih false p _ hndrest (by rw [lookup_setKey_ne hk, ha]) hbrest hdv
          | dict bd =>
            rw [merge_cons_dd hl]
            cases he : (merge_dicts rc (p ++ [k1]) ad bd).2 with
            | some e => simp only []; rw [lookup_setKey_ne hk, ha]
            | none =>
              simp only []
              exact ih rc p _ hndrest (by rw [lookup_setKey_ne hk, ha]) hbrest hdv

/-- Claim C3: for all trees `A` and `B` sharing a key `k` whose two values
differ and are not both mappings, `merge(A, B, Overwrite)` succeeds and the
result maps `k` to `B[k]` (a source mapping replacing a non-mapping target
value is treated as an ordinary leaf overwrite of the whole subtree). -/
theorem merge_overwrite_wins {α : Type} [DecidableEq α]
    {a b : List (String × PyVal α)} {k : String} {av bv : PyVal α}
    (hnd : nodupKeys b) (ha : lookupKey k a = some av)
    (hb : lookupKey k b = some bv)
    (hboth : (isDict av && isDict bv) = false) (hne : av ≠ bv) :
    (merge_dicts false [] a b).2 = none ∧
    lookupKey k (merge_dicts false [] a b).1 = some bv :=
  ⟨merge_ow_no_raise [] a b, merge_ow_wins_aux b [] a av hnd ha hb hboth hne⟩

/-- Witness for C3 at `A = {"k": 1}`, `B = {"k": 2}`. -/
theorem merge_overwrite_wins_witness :
    nodupKeys [("k", PyVal.leaf (2 : Nat))] ∧
    lookupKey "k" [("k", PyVal.leaf (1 : Nat))] = some (PyVal.leaf 1) ∧
    lookupKey "k" [("k", PyVal.leaf (2 : Nat))] = some (PyVal.leaf 2) ∧
    (isDict (PyVal.leaf (1 : Nat)) && isDict (PyVal.leaf (2 : Nat))) = false ∧
    PyVal.leaf (1 : Nat) ≠ PyVal.leaf 2 ∧
    ((merge_dicts false [] [("k", PyVal.leaf (1 : Nat))] [("k", PyVal.leaf 2)]).2 = none ∧
     lookupKey "k" (merge_dicts false [] [("k", PyVal.leaf (1 : Nat))]
       [("k", PyVal.leaf 2)]).1 = some (PyVal.leaf 2)) :=
  ⟨by simp [nodupKeys], rfl, rfl, rfl, by simp,
   merge_overwrite_wins (by simp [nodupKeys]) rfl rfl rfl (by simp)⟩

/-- Claim C4: a key bound in both trees to equal non-mapping values is left
unchanged in the target by the merge under either policy, and merging that
key alone under the Raise policy succeeds without raising and without any
change. -/
theorem merge_equal_leaf_noop {α : Type} [DecidableEq α]
    {a b : List (String × PyVal α)} {k : String} {v : PyVal α}
    (hnd : nodupKeys b) (ha : lookupKey k a = some v)
    (hb : lookupKey k b = some v) (hdv : isDict v = false) :
    (∀ rc, lookupKey k (merge_dicts rc [] a b).1 = some v) ∧
    merge_dicts true [] a [(k, v)] = (a, none) := by
  constructor
  · intro rc; exact merge_equal_stable_aux b rc [] a hnd ha hb hdv
  · obtain ⟨x, rfl⟩ : ∃ x, v = PyVal.leaf x := by
      cases v with
      | leaf x => exact ⟨x, rfl⟩
      | dict es => simp [isDict] at hdv
    rw [merge_cons_ndd ha (by simp [isDict]), pyEq_leaf_refl]
    simp [merge_nil]

/-- Witness for C4 at `A = {"k": 5}`, `B = {"k": 5, "z": 7}`. -/
theorem merge_equal_leaf_noop_witness :
    nodupKeys [("k", PyVal.leaf (5 : Nat)), ("z", PyVal.leaf 7)] ∧
    lookupKey "k" [("k", PyVal.leaf (5 : Nat))] = some (PyVal.leaf 5) ∧
    lookupKey "k" [("k", PyVal.leaf (5 : Nat)), ("z", PyVal.leaf 7)] = some (PyVal.leaf 5) ∧
    isDict (PyVal.leaf (5 : Nat)) = false ∧
    ((∀ rc, lookupKey "k" (merge_dicts rc [] [("k", PyVal.leaf (5 : Nat))]
        [("k", PyVal.leaf 5), ("z", PyVal.leaf 7)]).1 = some (PyVal.leaf 5)) ∧
     merge_dicts true [] [("k", PyVal.leaf (5 : Nat))] [("k", PyVal.leaf 5)] =
       ([("k", PyVal.leaf (5 : Nat))], none)) :=
  ⟨by simp [nodupKeys], rfl, rfl, rfl,
   merge_equal_leaf_noop (by simp [nodupKeys]) rfl rfl rfl⟩

/-- The fuel-bounded merge agrees with the recursive merge whenever the fuel
exceeds the size of the source tree: the structural recursion of
`merge_dicts` is well-founded, with recursion depth bounded by the size of
the (finite, acyclic by construction) source tree. -/
theorem merge_fuel_aux {α : Type} [DecidableEq α] :
    ∀ (fuel : Nat) (b : List (String × PyVal α)), sizeOf b < fuel →
    ∀ (rc : Bool) (p : List String) (a : List (String × PyVal α)),
    merge_dicts_fuel fuel rc p a b = some (merge_dicts rc p a b) := by
  intro fuel
  induction fuel with
  | zero => intro b hb; omega
  | succ m ih =>
    intro b hb rc p a
    cases b with
    | nil => rw [merge_nil]; rfl
    | cons hd rest =>
      obtain ⟨k1, bv⟩ := hd
      have hrest : sizeOf rest < m := by simp at hb; omega
      cases hl : lookupKey k1 a with
      | none =>
        rw [merge_cons_absent hl, merge_dicts_fuel]
        simp only [hl]
        exact ih rest hrest rc p _
      | some av =>
        cases av with
        | leaf x =>
          rw [merge_cons_ndd hl (by simp [isDict]), merge_dicts_fuel]
          simp only [hl]
          cases hpe : pyEq (PyVal.leaf x) bv with
          | true =>
            simp only [if_true]
            exact ih rest hrest rc p a
          | false =>
            simp only [Bool.false_eq_true, if_false]
            cases rc with
            | true => simp
            | false =>
              simp only [Bool.false_eq_true, if_false]
              exact ih rest hrest false p _
        | dict ad =>
          cases bv with
          | leaf y =>
            rw [merge_cons_ndd hl (by simp [isDict]), merge_dicts_fuel]
            simp only [hl, pyEq, Bool.false_eq_true, if_false]
            cases rc with
            | true => simp
            | false =>
              simp only [Bool.false_eq_true, if_false]
              exact ih rest hrest false p _
          | dict bd =>
            have hbd : sizeOf bd < m := by simp at hb; omega
            rw [merge_cons_dd hl, merge_dicts_fuel]
            simp only [hl, ih bd hbd rc (p ++ [k1]) ad]
            cases he : (merge_dicts rc (p ++ [k1]) ad bd).2 with
            | some e => simp
            | none => simp only []; exact ih rest hrest rc p _

/-- Claim C8: for every pair of finite acyclic trees and either policy the
merge terminates, returning the merged target or a raised conflict; its
recursion is well-founded, with depth bounded by any fuel exceeding the size
of the source tree (the fuel-bounded variant never runs out of fuel and
computes the same result). -/
theorem merge_dicts_terminates {α : Type} [DecidableEq α]
    (rc : Bool) (a b : List (String × PyVal α)) (fuel : Nat)
    (hfuel : sizeOf b < fuel) :
    merge_dicts_fuel fuel rc [] a b = some (merge_dicts rc [] a b) ∧
    ((merge_dicts rc [] a b).2 = none ∨ ∃ e, (merge_dicts rc [] a b).2 = some e) := by
  refine ⟨merge_fuel_aux fuel b hfuel rc [] a, ?_⟩
  cases (merge_dicts rc [] a b).2 with
  | none => exact Or.inl rfl
  | some e => exact Or.inr ⟨e, rfl⟩

/-- Witness for C8 at `A = {"x": 1}`, `B = {"x": {"y": 2}}`, fuel 100. -/
theorem merge_dicts_terminates_witness :
    sizeOf [("x", PyVal.dict [("y", PyVal.leaf (2 : Nat))])] < 1000 ∧
    (merge_dicts_fuel 1000 true [] [("x", PyVal.leaf (1 : Nat))]
        [("x", PyVal.dict [("y", PyVal.leaf 2)])] =
      some (merge_dicts true [] [("x", PyVal.leaf (1 : Nat))]
        [("x", PyVal.dict [("y", PyVal.leaf 2)])]) ∧
     ((merge_dicts true [] [("x", PyVal.leaf (1 : Nat))]
         [("x", PyVal.dict [("y", PyVal.leaf 2)])]).2 = none ∨
      ∃ e, (merge_dicts true [] [("x", PyVal.leaf (1 : Nat))]
         [("x", PyVal.dict [("y", PyVal.leaf 2)])]).2 = some e)) :=
  ⟨by decide, merge_dicts_terminates true _ _ 1000 (by decide)⟩

/-- Claim C7: under the Raise policy the merge fails fast on the first
detected conflict.  If merging a prefix of the source entries succeeded,
producing target state `a1`, and the next entry `(k, bv)` conflicts with
`a1` (key bound, values not both dicts and unequal), then the whole merge
stops exactly there: the raised message names the conflicting dotted path,
the returned target state is precisely `a1` (the conflicting key keeps its
binding, the already-merged prefix is kept — no rollback), and the sibling
entries after the conflict are never processed (the result does not depend
on them). -/
theorem merge_raise_fail_fast {α : Type} [DecidableEq α]
    {p : List String} {a a1 : List (String × PyVal α)}
    {b1 b2 : List (String × PyVal α)} {k : String} {av bv : PyVal α}
    (h1 : merge_dicts true p a b1 = (a1, none))
    (ha : lookupKey k a1 = some av)
    (hboth : (isDict av && isDict bv) = false)
    (hne : pyEq av bv = false) :
    merge_dicts true p a (b1 ++ (k, bv) :: b2) =
      (a1, some (conflictMsg (p ++ [k]))) := by
  rw [merge_append, h1]
  exact merge_cons_raise ha hboth hne

/-- Witness for C7 at `A = {"u": 1, "k": 2}`, prefix `{"w": 3}`, conflicting
entry `("k", 5)`, unprocessed sibling `{"z", 9}`. -/
theorem merge_raise_fail_fast_witness :
    merge_dicts true [] [("u", PyVal.leaf (1 : Nat)), ("k", PyVal.leaf 2)]
        [("w", PyVal.leaf 3)] =
      ([("u", PyVal.leaf (1 : Nat)), ("k", PyVal.leaf 2), ("w", PyVal.leaf 3)], none) ∧
    lookupKey "k" [("u", PyVal.leaf (1 : Nat)), ("k", PyVal.leaf 2), ("w", PyVal.leaf 3)] =
      some (PyVal.leaf 2) ∧
    (isDict (PyVal.leaf (2 : Nat)) && isDict (PyVal.leaf (5 : Nat))) = false ∧
    pyEq (PyVal.leaf (2 : Nat)) (PyVal.leaf 5) = false ∧
    merge_dicts true [] [("u", PyVal.leaf (1 : Nat)), ("k", PyVal.leaf 2)]
        ([("w", PyVal.leaf 3)] ++ ("k", PyVal.leaf 5) :: [("z", PyVal.leaf 9)]) =
      ([("u", PyVal.leaf (1 : Nat)), ("k", PyVal.leaf 2), ("w", PyVal.leaf 3)],
       some (conflictMsg ([] ++ ["k"]))) :=
  ⟨by simp [merge_dicts, lookupKey, setKey], rfl, rfl, by simp [pyEq],
   merge_raise_fail_fast (by simp [merge_dicts, lookupKey, setKey]) rfl rfl
     (by simp [pyEq])⟩

/-! ### Conflict detection under the Raise policy (C2) -/

theorem pyEq_true_leaf {α : Type} [DecidableEq α] {av bv : PyVal α}
    (h : pyEq av bv = true) : ∃ x, av = PyVal.leaf x ∧ bv = PyVal.leaf x := by
  cases av <;> cases bv <;> simp_all [pyEq]

theorem lookupKey_cons_self {α : Type} (k : String) (v : PyVal α)
    (rest : List (String × PyVal α)) :
    lookupKey k ((k, v) :: rest) = some v := by
  simp [lookupKey]

theorem hasConfD_nil {α : Type} [DecidableEq α] (a : List (String × PyVal α)) :
    hasConfD a [] = false := by
  rw [hasConfD]

theorem wfD_nil {α : Type} : wfD ([] : List (String × PyVal α)) = true := by
  rw [wfD]

theorem wfD_cons {α : Type} (k : String) (v : PyVal α)
    (rest : List (String × PyVal α)) :
    wfD ((k, v) :: rest) =
      ((decide (∀ kv ∈ rest, kv.1 ≠ k)) &&
       (match v with
        | .leaf _ => true
        | .dict es => wfD es) && wfD rest) := by
  rw [wfD.eq_def]

theorem hasConfD_cons {α : Type} [DecidableEq α]
    (a : List (String × PyVal α)) (k : String) (bv : PyVal α)
    (rest : List (String × PyVal α)) :
    hasConfD a ((k, bv) :: rest) =
      ((match lookupKey k a, bv with
        | some (.dict ad), .dict bd => hasConfD ad bd
        | some av, bv' => !pyEq av bv'
        | none, _ => false) || hasConfD a rest) := by
  rw [hasConfD.eq_def]

theorem hasConfD_cons_none {α : Type} [DecidableEq α]
    {a : List (String × PyVal α)} {k : String} {bv : PyVal α}
    {rest : List (String × PyVal α)} (h : lookupKey k a = none) :
    hasConfD a ((k, bv) :: rest) = hasConfD a rest := by
  rw [hasConfD_cons, h]
  simp

theorem hasConfD_cons_dd {α : Type} [DecidableEq α]
    {a ad bd : List (String × PyVal α)} {k : String}
    {rest : List (String × PyVal α)} (h : lookupKey k a = some (.dict ad)) :
    hasConfD a ((k, .dict bd) :: rest) = (hasConfD ad bd || hasConfD a rest) := by
  rw [hasConfD_cons, h]

theorem hasConfD_cons_ndd {α : Type} [DecidableEq α]
    {a : List (String × PyVal α)} {k : String} {av bv : PyVal α}
    {rest : List (String × PyVal α)} (h : lookupKey k a = some av)
    (hnd : (isDict av && isDict bv) = false) :
    hasConfD a ((k, bv) :: rest) = (!pyEq av bv || hasConfD a rest) := by
  rw [hasConfD_cons, h]
  cases av <;> cases bv <;> simp_all [isDict]

theorem hasConfD_setKey {α : Type} [DecidableEq α] {k : String} {v : PyVal α}
    {a : List (String × PyVal α)} :
    ∀ {bl : List (String × PyVal α)}, (∀ kv ∈ bl, kv.1 ≠ k) →
    hasConfD (setKey k v a) bl = hasConfD a bl := by
  intro bl
  induction bl with
  | nil => intro _; rw [hasConfD_nil, hasConfD_nil]
  | cons hd rest ih =>
    intro hk
    obtain ⟨k1, bv1⟩ := hd
    have hk1 : k ≠ k1 := Ne.symm (hk (k1, bv1) (by simp))
    have hlk : lookupKey k1 (setKey k v a) = lookupKey k1 a := lookup_setKey_ne hk1 v a
    have hrest := ih (fun kv hm => hk kv (by simp [hm]))
    cases hl : lookupKey k1 a with
    | none =>
      rw [hasConfD_cons_none (hlk.trans hl), hasConfD_cons_none hl, hrest]
    | some av =>
      cases av with
      | leaf x =>
        rw [hasConfD_cons_ndd (hlk.trans hl) (by simp [isDict]),
          hasConfD_cons_ndd hl (by simp [isDict]), hrest]
      | dict ad =>
        cases bv1 with
        | leaf y =>
          rw [hasConfD_cons_ndd (hlk.trans hl) (by simp [isDict]),
            hasConfD_cons_ndd hl (by simp [isDict]), hrest]
        | dict bd =>
          rw [hasConfD_cons_dd (hlk.trans hl), hasConfD_cons_dd hl, hrest]

theorem confPathD_setKey {α : Type} [DecidableEq α] {k : String} {v : PyVal α}
    {a bl : List (String × PyVal α)} (hk : ∀ kv ∈ bl, kv.1 ≠ k)
    (q : List String) : confPathD (setKey k v a) bl q = confPathD a bl q := by
  cases q with
  | nil => rfl
  | cons k1 p =>
    show (match lookupKey k1 (setKey k v a), lookupKey k1 bl with
      | some av, some bv =>
        (match av, bv, p with
         | .dict ad, .dict bd, _ => confPathD ad bd p
         | av', bv', [] => !pyEq av' bv'
         | _, _, _ => false)
      | _, _ => false) =
      (match lookupKey k1 a, lookupKey k1 bl with
      | some av, some bv =>
        (match av, bv, p with
         | .dict ad, .dict bd, _ => confPathD ad bd p
         | av', bv', [] => !pyEq av' bv'
         | _, _, _ => false)
      | _, _ => false)
    cases hbl : lookupKey k1 bl with
    | none => cases lookupKey k1 (setKey k v a) <;> cases lookupKey k1 a <;> rfl
    | some bv =>
      obtain ⟨kv, hm, hkv⟩ := lookup_mem_keys hbl
      have hk1 : k ≠ k1 := Ne.symm (hkv ▸ hk kv hm)
      rw [lookup_setKey_ne hk1]

/-- A conflict path through the tail entries of a source dict is a conflict
path through the whole dict, provided the head key does not occur in the
tail. -/
theorem confPathD_lift {α : Type} [DecidableEq α] {k1 : String} {bv1 : PyVal α}
    {a rest : List (String × PyVal α)} (hk : ∀ kv ∈ rest, kv.1 ≠ k1)
    {q : List String} (h : confPathD a rest q = true) :
    confPathD a ((k1, bv1) :: rest) q = true := by
  cases q with
  | nil => simp [confPathD] at h
  | cons k2 p =>
    rw [confPathD] at h ⊢
    cases hbl : lookupKey k2 rest with
    | none => rw [hbl] at h; cases hla : lookupKey k2 a <;> rw [hla] at h <;> simp at h
    | some bv2 =>
      obtain ⟨kv, hm, hkv⟩ := lookup_mem_keys hbl
      have hk2 : k2 ≠ k1 := hkv ▸ hk kv hm
      have hcons : lookupKey k2 ((k1, bv1) :: rest) = some bv2 := by
        simp [lookupKey, Ne.symm hk2, hbl]
      rw [hbl] at h
      rw [hcons]
      exact h

/-- Master lemma for C2: under the Raise policy, the merge raises exactly
when a conflict exists between the two trees, and any raised message is the
dotted rendering of an actual conflict path prefixed by the `path`
argument. -/
theorem merge_raise_conf_aux {α : Type} [DecidableEq α] :
    ∀ (n : Nat) (b : List (String × PyVal α)), sizeOf b ≤ n →
    ∀ (p : List String) (a : List (String × PyVal α)), wfD b = true →
      ((merge_dicts true p a b).2 = none ↔ hasConfD a b = false) ∧
      (∀ e, (merge_dicts true p a b).2 = some e →
        ∃ q, confPathD a b q = true ∧ e = conflictMsg (p ++ q)) := by
  intro n
  induction n with
  | zero => intro b hb; cases b <;> simp_all
  | succ m ih =>
    intro b hb p a hwf
    cases b with
    | nil =>
      rw [merge_nil]
      constructor
      · simp [hasConfD_nil]
      · intro e he; simp at he
    | cons hd rest =>
      obtain ⟨k1, bv⟩ := hd
      have hrest : sizeOf rest ≤ m := by simp at hb; omega
      rw [wfD_cons] at hwf
      simp only [Bool.and_eq_true, decide_eq_true_eq] at hwf
      obtain ⟨⟨hknotin, hwfv⟩, hwfrest⟩ := hwf
      cases hl : lookupKey k1 a with
      | none =>
        rw [merge_cons_absent hl]
        have htail := ih rest hrest p (setKey k1 bv a) hwfrest
        constructor
        · rw [htail.1.trans (by rw [hasConfD_setKey hknotin]),
            hasConfD_cons_none hl]
        · intro e he
          obtain ⟨q, hq, hmsg⟩ := htail.2 e he
          rw [confPathD_setKey hknotin] at hq
          exact ⟨q, confPathD_lift hknotin hq, hmsg⟩
      | some av =>
        cases av with
        | leaf x =>
          rw [merge_cons_ndd hl (by simp [isDict])]
          cases hpe : pyEq (PyVal.leaf x) bv with
          | true =>
            have htail := ih rest hrest p a hwfrest
            have hcf : hasConfD a ((k1, bv) :: rest) = hasConfD a rest := by
              rw [hasConfD_cons_ndd hl (by simp [isDict]), hpe]
              simp
            simp only [if_true]
            refine ⟨htail.1.trans (by rw [hcf]), ?_⟩
            intro e he
            obtain ⟨q, hq, hmsg⟩ := htail.2 e he
            exact ⟨q, confPathD_lift hknotin hq, hmsg⟩
          | false =>
            simp only [Bool.false_eq_true, if_false, if_true]
            have hcf : hasConfD a ((k1, bv) :: rest) = true := by
              rw [hasConfD_cons_ndd hl (by simp [isDict]), hpe]
              simp
            constructor
            · rw [hcf]; simp
            · intro e he
              refine ⟨[k1], ?_, by simpa using he.symm⟩
              rw [confPathD, hl, lookupKey_cons_self]
              cases bv <;> simp_all [pyEq]
        | dict ad =>
          cases bv with
          | leaf y =>
            rw [merge_cons_ndd hl (by simp [isDict])]
            simp only [pyEq, Bool.false_eq_true, if_false, if_true]
            have hcf : hasConfD a ((k1, PyVal.leaf y) :: rest) = true := by
              rw [hasConfD_cons_ndd hl (by simp [isDict])]
              simp [pyEq]
            constructor
            · rw [hcf]; simp
            · intro e he
              refine ⟨[k1], ?_, by simpa using he.symm⟩
              rw [confPathD, hl, lookupKey_cons_self]
              simp [pyEq]
          | dict bd =>
            have hbd : sizeOf bd ≤ m := by simp at hb; omega
            have hinner := ih bd hbd (p ++ [k1]) ad hwfv
            rw [merge_cons_dd hl]
            cases he : (merge_dicts true (p ++ [k1]) ad bd).2 with
            | some e0 =>
              have hcbd : hasConfD ad bd = true := by
                cases hcd : hasConfD ad bd with
                | true => rfl
                | false => rw [hinner.1.mpr hcd] at he; cases he
              have hcf : hasConfD a ((k1, PyVal.dict bd) :: rest) = true := by
                rw [hasConfD_cons_dd hl, hcbd]
                simp
              simp only []
              constructor
              · rw [hcf]; simp
              · intro e he2
                have he0 : e = e0 := by simpa using he2.symm
                obtain ⟨q', hq', hmsg⟩ := hinner.2 e0 he
                refine ⟨k1 :: q', ?_, ?_⟩
                · rw [confPathD, hl, lookupKey_cons_self]
                  cases q' <;> exact hq'
                · rw [he0, hmsg]; simp
            | none =>
              have hcbd : hasConfD ad bd = false := hinner.1.mp he
              have hcf : hasConfD a ((k1, PyVal.dict bd) :: rest) = hasConfD a rest := by
                rw [hasConfD_cons_dd hl, hcbd]
                simp
              simp only []
              have htail := ih rest hrest p
                (setKey k1 (PyVal.dict (merge_dicts true (p ++ [k1]) ad bd).1) a) hwfrest
              constructor
              · rw [htail.1.trans (by rw [hasConfD_setKey hknotin]), hcf]
              · intro e he2
                obtain ⟨q, hq, hmsg⟩ := htail.2 e he2
                rw [confPathD_setKey hknotin] at hq
                exact ⟨q, confPathD_lift hknotin hq, hmsg⟩

/-- Claim C2: `merge(target, source, Raise)` raises a `MergeConflict` if and
only if some key present in both trees (followed along matching nested
dicts) holds two values that are not equal and are not both mappings; any
raised message embeds the dotted conflict path (ancestor keys plus the key,
joined by `.`); and the error is raised only under the Raise policy — the
Overwrite policy never raises. -/
theorem merge_raise_conflict_iff {α : Type} [DecidableEq α]
    {a b : List (String × PyVal α)} (hwf : wfD b = true) :
    ((merge_dicts true [] a b).2 ≠ none ↔ hasConfD a b = true) ∧
    (∀ e, (merge_dicts true [] a b).2 = some e →
      ∃ q, confPathD a b q = true ∧ e = conflictMsg q) ∧
    (merge_dicts false [] a b).2 = none := by
  have h := merge_raise_conf_aux (sizeOf b) b (Nat.le_refl _) [] a hwf
  refine ⟨?_, ?_, merge_ow_no_raise [] a b⟩
  · rw [Ne, h.1]
    simp
  · intro e he
    obtain ⟨q, hq, hmsg⟩ := h.2 e he
    exact ⟨q, hq, by simpa using hmsg⟩

/-- Witness for C2 at `A = {"x": {"y": 1}}`, `B = {"x": {"y": 2}}`: the
merge under Raise fails and its message names the dotted path `x.y`. -/
theorem merge_raise_conflict_iff_witness :
    wfD [("x", PyVal.dict [("y", PyVal.leaf (2 : Nat))])] = true ∧
    (((merge_dicts true [] [("x", PyVal.dict [("y", PyVal.leaf (1 : Nat))])]
         [("x", PyVal.dict [("y", PyVal.leaf 2)])]).2 ≠ none ↔
       hasConfD [("x", PyVal.dict [("y", PyVal.leaf (1 : Nat))])]
         [("x", PyVal.dict [("y", PyVal.leaf 2)])] = true) ∧
     (∀ e, (merge_dicts true [] [("x", PyVal.dict [("y", PyVal.leaf (1 : Nat))])]
         [("x", PyVal.dict [("y", PyVal.leaf 2)])]).2 = some e →
       ∃ q, confPathD [("x", PyVal.dict [("y", PyVal.leaf (1 : Nat))])]
         [("x", PyVal.dict [("y", PyVal.leaf 2)])] q = true ∧ e = conflictMsg q) ∧
     (merge_dicts false [] [("x", PyVal.dict [("y", PyVal.leaf (1 : Nat))])]
        [("x", PyVal.dict [("y", PyVal.leaf 2)])]).2 = none) ∧
    (merge_dicts true [] [("x", PyVal.dict [("y", PyVal.leaf (1 : Nat))])]
       [("x", PyVal.dict [("y", PyVal.leaf 2)])]).2 = some (conflictMsg ["x", "y"]) :=
  ⟨by simp [wfD], merge_raise_conflict_iff (by simp [wfD]),
   by simp [merge_dicts, lookupKey, setKey, pyEq]⟩

/-! ### Idempotence of the overwriting merge (C6) -/

/-- `r` covers the source entries `b`: every key of `b` is bound in `r`, to
the very value of `b` when the two values are not both dicts, and to a dict
covering `b`'s dict entries when they are.  After an overwriting merge the
target covers the source, and merging a covered source is a no-op. -/
def CoversD {α : Type} [DecidableEq α] (r : List (String × PyVal α)) :
    List (String × PyVal α) → Prop
  | [] => True
  | (k, bv) :: rest =>
    (match lookupKey k r, bv with
     | some (.dict rd), .dict bd => CoversD rd bd
     | some rv, bv' => rv = bv'
     | none, _ => False) ∧ CoversD r rest
  termination_by b => sizeOf b

theorem CoversD_nil {α : Type} [DecidableEq α] (r : List (String × PyVal α)) :
    CoversD r [] := by
  rw [CoversD]
  trivial

theorem CoversD_cons {α : Type} [DecidableEq α]
    (r : List (String × PyVal α)) (k : String) (bv : PyVal α)
    (rest : List (String × PyVal α)) :
    CoversD r ((k, bv) :: rest) =
      ((match lookupKey k r, bv with
        | some (.dict rd), .dict bd => CoversD rd bd
        | some rv, bv' => rv = bv'
        | none, _ => False) ∧ CoversD r rest) := by
  rw [CoversD.eq_def]

theorem wfD_lookup_self {α : Type} :
    ∀ {es : List (String × PyVal α)}, wfD es = true →
    ∀ kv ∈ es, lookupKey kv.1 es = some kv.2 := by
  intro es
  induction es with
  | nil => simp
  | cons hd rest ih =>
    intro hwf kv hm
    obtain ⟨k1, v1⟩ := hd
    rw [wfD_cons] at hwf
    simp only [Bool.and_eq_true, decide_eq_true_eq] at hwf
    obtain ⟨⟨hknotin, _⟩, hwfrest⟩ := hwf
    rcases List.mem_cons.mp hm with rfl | hm2
    · simp [lookupKey]
    · have hne : kv.1 ≠ k1 := hknotin kv hm2
      rw [lookupKey, if_neg (Ne.symm hne)]
      exact ih hwfrest kv hm2

/-- A well-formed dict covers its own entries. -/
theorem coversD_self_aux {α : Type} [DecidableEq α] :
    ∀ (n : Nat) (l : List (String × PyVal α)), sizeOf l ≤ n →
    ∀ (d : List (String × PyVal α)), wfD l = true →
    (∀ kv ∈ l, lookupKey kv.1 d = some kv.2) → CoversD d l := by
  intro n
  induction n with
  | zero => intro l hl; cases l <;> simp_all
  | succ m ih =>
    intro l hl d hwf hmem
    cases l with
    | nil => exact CoversD_nil d
    | cons hd rest =>
      obtain ⟨k1, bv⟩ := hd
      have hrest : sizeOf rest ≤ m := by simp at hl; omega
      rw [wfD_cons] at hwf
      simp only [Bool.and_eq_true, decide_eq_true_eq] at hwf
      obtain ⟨⟨hknotin, hwfv⟩, hwfrest⟩ := hwf
      rw [CoversD_cons]
      have hk1 : lookupKey k1 d = some bv := hmem (k1, bv) (by simp)
      refine ⟨?_, ih rest hrest d hwfrest (fun kv hm => hmem kv (by simp [hm]))⟩
      rw [hk1]
      cases bv with
      | leaf x => rfl
      | dict bd =>
        have hbd : sizeOf bd ≤ m := by simp at hl; omega
        exact ih bd hbd bd hwfv (wfD_lookup_self hwfv)

/-- After an overwriting merge, the target covers the source entries. -/
theorem merge_covers_aux {α : Type} [DecidableEq α] :
    ∀ (n : Nat) (b : List (String × PyVal α)), sizeOf b ≤ n →
    ∀ (p : List String) (a : List (String × PyVal α)), wfD b = true →
    CoversD (merge_dicts false p a b).1 b := by
  intro n
  induction n with
  | zero => intro b hb; cases b <;> simp_all
  | succ m ih =>
    intro b hb p a hwf
    cases b with
    | nil => exact CoversD_nil _
    | cons hd rest =>
      obtain ⟨k1, bv⟩ := hd
      have hrest : sizeOf rest ≤ m := by simp at hb; omega
      rw [wfD_cons] at hwf
      simp only [Bool.and_eq_true, decide_eq_true_eq] at hwf
      obtain ⟨⟨hknotin, hwfv⟩, hwfrest⟩ := hwf
      rw [CoversD_cons]
      cases hl : lookupKey k1 a with
      | none =>
        rw [merge_cons_absent hl]
        refine ⟨?_, ih rest hrest p _ hwfrest⟩
        rw [merge_lookup_stable rest false p _ hknotin, lookup_setKey_self]
        cases bv with
        | leaf x => rfl
        | dict bd =>
          have hbd : sizeOf bd ≤ m := by simp at hb; omega
          exact coversD_self_aux m bd hbd bd hwfv (wfD_lookup_self hwfv)
      | some av =>
        cases av with
        | leaf x =>
          rw [merge_cons_ndd hl (by simp [isDict])]
          cases hpe : pyEq (PyVal.leaf x) bv with
          | true =>
            obtain ⟨y, hy, rfl⟩ := pyEq_true_leaf hpe
            simp only [if_true]
            refine ⟨?_, ih rest hrest p a hwfrest⟩
            rw [merge_lookup_stable rest false p _ hknotin, hl]
            exact hy
          | false =>
            simp only [Bool.false_eq_true, if_false]
            refine ⟨?_, ih rest hrest p _ hwfrest⟩
            rw [merge_lookup_stable rest false p _ hknotin, lookup_setKey_self]
            cases bv with
            | leaf y => rfl
            | dict bd =>
              have hbd : sizeOf bd ≤ m := by simp at hb; omega
              exact coversD_self_aux m bd hbd bd hwfv (wfD_lookup_self hwfv)
        | dict ad =>
          cases bv with
          | leaf y =>
            rw [merge_cons_ndd hl (by simp [isDict])]
            simp only [pyEq, Bool.false_eq_true, if_false]
            refine ⟨?_, ih rest hrest p _ hwfrest⟩
            rw [merge_lookup_stable rest false p _ hknotin, lookup_setKey_self]
          | dict bd =>
            have hbd : sizeOf bd ≤ m := by simp at hb; omega
            rw [merge_cons_dd hl, merge_ow_no_raise (p ++ [k1]) ad bd]
            simp only []
            refine ⟨?_, ih rest hrest p _ hwfrest⟩
            rw [merge_lookup_stable rest false p _ hknotin, lookup_setKey_self]
            exact ih bd hbd (p ++ [k1]) ad hwfv

/-- Merging source entries already covered by the target changes nothing and
raises nothing, under either policy. -/
theorem merge_covers_noop_aux {α : Type} [DecidableEq α] :
    ∀ (n : Nat) (b : List (String × PyVal α)), sizeOf b ≤ n →
    ∀ (rc : Bool) (p : List String) (r : List (String × PyVal α)),
    wfD b = true → CoversD r b → merge_dicts rc p r b = (r, none) := by
  intro n
  induction n with
  | zero => intro b hb; cases b <;> simp_all
  | succ m ih =>
    intro b hb rc p r hwf hcov
    cases b with
    | nil => exact merge_nil rc p r
    | cons hd rest =>
      obtain ⟨k1, bv⟩ := hd
      have hrest : sizeOf rest ≤ m := by simp at hb; omega
      rw [wfD_cons] at hwf
      simp only [Bool.and_eq_true, decide_eq_true_eq] at hwf
      obtain ⟨⟨hknotin, hwfv⟩, hwfrest⟩ := hwf
      rw [CoversD_cons] at hcov
      obtain ⟨hhead, htail⟩ := hcov
      cases hl : lookupKey k1 r with
      | none => rw [hl] at hhead; cases bv <;> exact hhead.elim
      | some rv =>
        rw [hl] at hhead
        cases rv with
        | leaf x =>
          have hxv : PyVal.leaf x = bv := by
            cases bv with
            | leaf y => exact hhead
            | dict bd => simp at hhead
          rw [merge_cons_ndd hl (by cases bv <;> simp [isDict]), ← hxv,
            pyEq_leaf_refl]
          simp only [if_true]
          exact ih rest hrest rc p r hwfrest htail
        | dict rd =>
          cases bv with
          | leaf y => simp at hhead
          | dict bd =>
            have hbd : sizeOf bd ≤ m := by simp at hb; omega
            rw [merge_cons_dd hl, ih bd hbd rc (p ++ [k1]) rd hwfv hhead]
            simp only []
            rw [setKey_of_lookup hl]
            exact ih rest hrest rc p r hwfrest htail

/-- Claim C6: the overwriting merge is idempotent in the source: merging `B`
a second time into the result of `merge(A, B, Overwrite)` returns that very
tree, unchanged, with no conflict raised. -/
theorem merge_overwrite_idempotent {α : Type} [DecidableEq α]
    (a b : List (String × PyVal α)) (hwf : wfD b = true) :
    merge_dicts false [] (merge_dicts false [] a b).1 b =
      ((merge_dicts false [] a b).1, none) :=
  merge_covers_noop_aux (sizeOf b) b (Nat.le_refl _) false [] _ hwf
    (merge_covers_aux (sizeOf b) b (Nat.le_refl _) [] a hwf)

/-- Witness for C6 at `A = {"x": 1}`, `B = {"x": 2, "y": {"z": 3}}`. -/
theorem merge_overwrite_idempotent_witness :
    wfD [("x", PyVal.leaf (2 : Nat)), ("y", PyVal.dict [("z", PyVal.leaf 3)])] = true ∧
    merge_dicts false []
        (merge_dicts false [] [("x", PyVal.leaf (1 : Nat))]
          [("x", PyVal.leaf 2), ("y", PyVal.dict [("z", PyVal.leaf 3)])]).1
        [("x", PyVal.leaf 2), ("y", PyVal.dict [("z", PyVal.leaf 3)])] =
      ((merge_dicts false [] [("x", PyVal.leaf (1 : Nat))]
          [("x", PyVal.leaf 2), ("y", PyVal.dict [("z", PyVal.leaf 3)])]).1, none) :=
  ⟨by simp [wfD], merge_overwrite_idempotent _ _ (by simp [wfD])⟩

/-! ### `format_instance_name` (C9, C10) -/

/-- Under the precondition that every record carries a name, the search loop
returns the first record (in sequence order) whose name equals the given
one. -/
theorem findInst_ok {nm : String} :
    ∀ {instances : List Inst}, (∀ i ∈ instances, i.name.isSome = true) →
    findInst nm instances = .ok (instances.find? (fun i => i.name == some nm)) := by
  intro instances
  induction instances with
  | nil => intro _; rfl
  | cons i rest ih =>
    intro hall
    cases hn : i.name with
    | none => have := hall i (by simp); rw [hn] at this; cases this
    | some n =>
      by_cases hnm : n = nm
      · subst hnm
        simp [findInst, hn, List.find?]
      · simp only [findInst, hn, List.find?, if_neg hnm]
        have hbeq : (some n == some nm) = false := by simpa using hnm
        rw [hbeq]
        exact ih (fun j hj => hall j (by simp [hj]))

/-- Claim C9: `format_instance_name` selects the first record (in sequence
order) whose `name` equals the given name; it returns nothing when no record
matches; it returns the base name when the match declares no options;
it returns `name + "-" + platform` when the match's options make
`append_platform_to_hostname` truthy; otherwise it returns the base name. -/
theorem format_instance_name_spec (nm platform : String)
    (instances : List Inst) (hall : ∀ i ∈ instances, i.name.isSome = true) :
    format_instance_name nm platform instances =
      .ok (match instances.find? (fun i => i.name == some nm) with
           | none => none
           | some w =>
             match w.options with
             | none => some nm
             | some opts =>
               if getOpt "append_platform_to_hostname" opts then
                 some (nm ++ "-" ++ platform)
               else some nm) := by
  rw [format_instance_name, findInst_ok hall]
  cases instances.find? (fun i => i.name == some nm) with
  | none => rfl
  | some w =>
    obtain ⟨wn, wo⟩ := w
    cases wo with
    | none => rfl
    | some opts =>
      by_cases h : getOpt "append_platform_to_hostname" opts = true <;> simp [h]

/-- Witness for C9 at the spec's example: instances
`[{"name": "web", "options": {"append_platform_to_hostname": true}}]`,
name `web`, platform `ec2`. -/
theorem format_instance_name_spec_witness :
    (∀ i ∈ [Inst.mk (some "web") (some [("append_platform_to_hostname", true)])],
      i.name.isSome = true) ∧
    format_instance_name "web" "ec2"
        [Inst.mk (some "web") (some [("append_platform_to_hostname", true)])] =
      .ok (match [Inst.mk (some "web")
              (some [("append_platform_to_hostname", true)])].find?
              (fun i => i.name == some "web") with
           | none => none
           | some w =>
             match w.options with
             | none => some "web"
             | some opts =>
               if getOpt "append_platform_to_hostname" opts then
                 some ("web" ++ "-" ++ "ec2")
               else some "web") ∧
    format_instance_name "web" "ec2"
        [Inst.mk (some "web") (some [("append_platform_to_hostname", true)])] =
      .ok (some "web-ec2") :=
  ⟨by simp, format_instance_name_spec "web" "ec2" _ (by simp), rfl⟩

theorem format_error_iff {nm platform : String} {instances : List Inst} :
    format_instance_name nm platform instances = .error () ↔
    findInst nm instances = .error () := by
  rw [format_instance_name]
  cases h : findInst nm instances with
  | error e => cases e; simp
  | ok o =>
    cases o with
    | none => simp
    | some w =>
      obtain ⟨wn, wo⟩ := w
      cases wo with
      | none => simp
      | some opts =>
        by_cases hg : getOpt "append_platform_to_hostname" opts = true <;> simp [hg]

/-- The search loop raises `KeyError` exactly when the scan, proceeding in
order past records whose names exist and differ from the target, reaches a
record without a name. -/
theorem findInst_error_iff {nm : String} :
    ∀ {instances : List Inst},
    findInst nm instances = .error () ↔
    ∃ pre bad rest, instances = pre ++ bad :: rest ∧ bad.name = none ∧
      ∀ i ∈ pre, ∃ n, i.name = some n ∧ n ≠ nm := by
  intro instances
  induction instances with
  | nil =>
    constructor
    · intro h; cases h
    · rintro ⟨pre, bad, rest, heq, -, -⟩
      cases pre <;> simp at heq
  | cons i rest ih =>
    cases hn : i.name with
    | none =>
      have hstep : findInst nm (i :: rest) = .error () := by simp [findInst, hn]
      rw [hstep]
      constructor
      · intro _
        exact ⟨[], i, rest, by simp, hn, by simp⟩
      · intro _; rfl
    | some n =>
      by_cases hnm : n = nm
      · have hstep : findInst nm (i :: rest) = .ok (some i) := by
          simp [findInst, hn, hnm]
        rw [hstep]
        constructor
        · intro h; cases h
        · rintro ⟨pre, bad, tail, heq, hbad, hpre⟩
          cases pre with
          | nil =>
            simp at heq
            rw [heq.1.symm] at hbad
            rw [hn] at hbad
            cases hbad
          | cons p0 pre' =>
            simp at heq
            obtain ⟨n', hn', hne⟩ := hpre p0 (by simp)
            rw [heq.1.symm, hn] at hn'
            cases hn'
            exact absurd hnm hne
      · have hstep : findInst nm (i :: rest) = findInst nm rest := by
          simp [findInst, hn, hnm]
        rw [hstep, ih]
        constructor
        · rintro ⟨pre, bad, tail, heq, hbad, hpre⟩
          refine ⟨i :: pre, bad, tail, by simp [heq], hbad, ?_⟩
          intro j hj
          rcases List.mem_cons.mp hj with rfl | hj2
          · exact ⟨n, hn, hnm⟩
          · exact hpre j hj2
        · rintro ⟨pre, bad, tail, heq, hbad, hpre⟩
          cases pre with
          | nil =>
            simp at heq
            rw [heq.1.symm, hn] at hbad
            cases hbad
          | cons p0 pre' =>
            simp at heq
            exact ⟨pre', bad, tail, heq.2, hbad, fun j hj => hpre j (by simp [hj])⟩

/-- Claim C10: `format_instance_name` reads the `name` field of every record
it scans, so it raises `KeyError` exactly when the scan reaches a nameless
record before any match (in particular, for any nameless record at all when
nothing matches); under the precondition that every record carries a name
the lookup is total and the error branch is unreachable. -/
theorem format_instance_name_keyerror (nm platform : String)
    (instances : List Inst) :
    ((∀ i ∈ instances, i.name.isSome = true) →
      ∃ r, format_instance_name nm platform instances = .ok r) ∧
    (format_instance_name nm platform instances = .error () ↔
      ∃ pre bad rest, instances = pre ++ bad :: rest ∧ bad.name = none ∧
        ∀ i ∈ pre, ∃ n, i.name = some n ∧ n ≠ nm) := by
  constructor
  · intro hall
    exact ⟨_, format_instance_name_spec nm platform instances hall⟩
  · rw [format_error_iff, findInst_error_iff]

/-- Witness for C10: a single record without a `name` field makes the lookup
raise `KeyError`; with the name present the lookup is total. -/
theorem format_instance_name_keyerror_witness :
    (((∀ i ∈ [Inst.mk none none], i.name.isSome = true) →
       ∃ r, format_instance_name "web" "ec2" [Inst.mk none none] = .ok r) ∧
     (format_instance_name "web" "ec2" [Inst.mk none none] = .error () ↔
       ∃ pre bad rest, [Inst.mk none none] = pre ++ bad :: rest ∧ bad.name = none ∧
         ∀ i ∈ pre, ∃ n, i.name = some n ∧ n ≠ "web")) ∧
    format_instance_name "web" "ec2" [Inst.mk none none] = .error () :=
  ⟨format_instance_name_keyerror "web" "ec2" [Inst.mk none none], rfl⟩

/-! ### Object identity: deep copy versus aliasing (C1, C5) -/

theorem lookupH_setKeyH_self {α : Type} (k : String) (v : HVal α) :
    ∀ d, lookupKeyH k (setKeyH k v d) = some v := by
  intro d
  induction d with
  | nil => simp [setKeyH, lookupKeyH]
  | cons hd tl ih =>
    obtain ⟨k', v'⟩ := hd
    by_cases h : k' = k <;> simp [setKeyH, lookupKeyH, h, ih]

theorem lookupH_setKeyH_ne {α : Type} {k kw : String} (hne : kw ≠ k) (v : HVal α) :
    ∀ d, lookupKeyH k (setKeyH kw v d) = lookupKeyH k d := by
  intro d
  induction d with
  | nil => simp [setKeyH, lookupKeyH, hne]
  | cons hd tl ih =>
    obtain ⟨k', v'⟩ := hd
    by_cases h : k' = kw
    · subst h; simp [setKeyH, lookupKeyH, hne, ih]
    · by_cases h2 : k' = k <;> simp [setKeyH, lookupKeyH, h, h2, hne, Ne.symm hne, ih]

theorem mtr_nil {α : Type} [DecidableEq α] (rc : Bool) (p : List String) (c : Nat)
    (a : List (String × HVal α)) : merge_dicts_tr rc p c a [] = (a, c, none) := by
  rw [merge_dicts_tr.eq_def]

theorem mtr_cons {α : Type} [DecidableEq α] (rc : Bool) (p : List String)
    (c : Nat) (a : List (String × HVal α)) (k : String) (bv : HVal α)
    (rest : List (String × HVal α)) :
    merge_dicts_tr rc p c a ((k, bv) :: rest) =
      (match lookupKeyH k a with
       | some av =>
         match av, bv with
         | .dict i ad, .dict _ bd =>
           (match (merge_dicts_tr rc (p ++ [k]) c ad bd).2.2 with
            | some e =>
              (setKeyH k (.dict i (merge_dicts_tr rc (p ++ [k]) c ad bd).1) a,
               (merge_dicts_tr rc (p ++ [k]) c ad bd).2.1, some e)
            | none => merge_dicts_tr rc p (merge_dicts_tr rc (p ++ [k]) c ad bd).2.1
                (setKeyH k (.dict i (merge_dicts_tr rc (p ++ [k]) c ad bd).1) a) rest)
         | _, _ =>
           if pyEq (eraseV av) (eraseV bv) then merge_dicts_tr rc p c a rest
           else if rc then (a, c, some (conflictMsg (p ++ [k])))
           else merge_dicts_tr rc p c (setKeyH k bv a) rest
       | none =>
         merge_dicts_tr rc p (importVal c bv).2
           (setKeyH k (importVal c bv).1 a) rest) := by
  rw [merge_dicts_tr.eq_def]

theorem mtr_cons_absent_leaf {α : Type} [DecidableEq α] {rc : Bool}
    {p : List String} {c : Nat} {a : List (String × HVal α)} {k : String} {x : α}
    {rest : List (String × HVal α)} (h : lookupKeyH k a = none) :
    merge_dicts_tr rc p c a ((k, .leaf x) :: rest) =
      merge_dicts_tr rc p c (setKeyH k (.leaf x) a) rest := by
  rw [mtr_cons, h]
  simp [importVal, isDictH]

theorem mtr_cons_absent_dict {α : Type} [DecidableEq α] {rc : Bool}
    {p : List String} {c : Nat} {a : List (String × HVal α)} {k : String} {j : Nat}
    {bes rest : List (String × HVal α)} (h : lookupKeyH k a = none) :
    merge_dicts_tr rc p c a ((k, .dict j bes) :: rest) =
      merge_dicts_tr rc p (deepcopyV c (.dict j bes)).2
        (setKeyH k (deepcopyV c (.dict j bes)).1 a) rest := by
  rw [mtr_cons, h]
  simp [importVal, isDictH]

theorem mtr_cons_dd {α : Type} [DecidableEq α] {rc : Bool} {p : List String}
    {c : Nat} {a ad bd : List (String × HVal α)} {k : String} {i j : Nat}
    {rest : List (String × HVal α)} (h : lookupKeyH k a = some (.dict i ad)) :
    merge_dicts_tr rc p c a ((k, .dict j bd) :: rest) =
      (match (merge_dicts_tr rc (p ++ [k]) c ad bd).2.2 with
       | some e => (setKeyH k (.dict i (merge_dicts_tr rc (p ++ [k]) c ad bd).1) a,
                    (merge_dicts_tr rc (p ++ [k]) c ad bd).2.1, some e)
       | none => merge_dicts_tr rc p (merge_dicts_tr rc (p ++ [k]) c ad bd).2.1
           (setKeyH k (.dict i (merge_dicts_tr rc (p ++ [k]) c ad bd).1) a) rest) := by
  rw [mtr_cons, h]

theorem mtr_cons_ndd {α : Type} [DecidableEq α] {rc : Bool} {p : List String}
    {c : Nat} {a : List (String × HVal α)} {k : String} {av bv : HVal α}
    {rest : List (String × HVal α)} (h : lookupKeyH k a = some av)
    (hnd : (isDictH av && isDictH bv) = false) :
    merge_dicts_tr rc p c a ((k, bv) :: rest) =
      (if pyEq (eraseV av) (eraseV bv) then merge_dicts_tr rc p c a rest
       else if rc then (a, c, some (conflictMsg (p ++ [k])))
       else merge_dicts_tr rc p c (setKeyH k bv a) rest) := by
  cases av with
  | leaf x =>
    cases bv with
    | leaf y => rw [mtr_cons, h]
    | dict j bd => rw [mtr_cons, h]
  | dict i ad =>
    cases bv with
    | leaf y => rw [mtr_cons, h]
    | dict j bd => simp [isDictH] at hnd

theorem idsD_nil {α : Type} : idsD ([] : List (String × HVal α)) = [] := by
  rw [idsD]

theorem idsD_cons_leaf {α : Type} (k : String) (x : α)
    (rest : List (String × HVal α)) :
    idsD ((k, .leaf x) :: rest) = idsD rest := by
  rw [idsD]

theorem idsD_cons_dict {α : Type} (k : String) (i : Nat)
    (es rest : List (String × HVal α)) :
    idsD ((k, .dict i es) :: rest) = i :: (idsD es ++ idsD rest) := by
  rw [idsD]

theorem eraseD_nil {α : Type} : eraseD ([] : List (String × HVal α)) = [] := by
  rw [eraseD]

theorem eraseD_cons_leaf {α : Type} (k : String) (x : α)
    (rest : List (String × HVal α)) :
    eraseD ((k, .leaf x) :: rest) = (k, .leaf x) :: eraseD rest := by
  rw [eraseD]

theorem eraseD_cons_dict {α : Type} (k : String) (i : Nat)
    (es rest : List (String × HVal α)) :
    eraseD ((k, .dict i es) :: rest) = (k, .dict (eraseD es)) :: eraseD rest := by
  rw [eraseD]

theorem deepcopyD_nil {α : Type} (c : Nat) :
    deepcopyD c ([] : List (String × HVal α)) = ([], c) := by
  rw [deepcopyD]

theorem deepcopyD_cons_leaf {α : Type} (c : Nat) (k : String) (x : α)
    (rest : List (String × HVal α)) :
    deepcopyD c ((k, .leaf x) :: rest) =
      ((k, .leaf x) :: (deepcopyD c rest).1, (deepcopyD c rest).2) := by
  rw [deepcopyD]

theorem deepcopyD_cons_dict {α : Type} (c : Nat) (k : String) (j : Nat)
    (es rest : List (String × HVal α)) :
    deepcopyD c ((k, .dict j es) :: rest) =
      ((k, .dict (deepcopyD c es).2 (deepcopyD c es).1) ::
        (deepcopyD ((deepcopyD c es).2 + 1) rest).1,
       (deepcopyD ((deepcopyD c es).2 + 1) rest).2) := by
  rw [deepcopyD]

theorem setInObjD_nil {α : Type} (i : Nat) (ky : String) (w : HVal α) :
    setInObjD i ky w ([] : List (String × HVal α)) = [] := by
  rw [setInObjD]

theorem setInObjD_cons_leaf {α : Type} (i : Nat) (ky k : String) (w : HVal α)
    (x : α) (rest : List (String × HVal α)) :
    setInObjD i ky w ((k, .leaf x) :: rest) =
      (k, .leaf x) :: setInObjD i ky w rest := by
  rw [setInObjD]

theorem setInObjD_cons_dict {α : Type} (i : Nat) (ky k : String) (w : HVal α)
    (j : Nat) (es rest : List (String × HVal α)) :
    setInObjD i ky w ((k, .dict j es) :: rest) =
      (k, .dict j (if j = i then setKeyH ky w (setInObjD i ky w es)
                   else setInObjD i ky w es)) :: setInObjD i ky w rest := by
  rw [setInObjD]

/-- `copy.deepcopy` of dict entries: the counter never decreases, every
identity of the copy is fresh (taken from `[c, c')`), and the copy has the
same underlying value as the original. -/
theorem deepcopyD_spec {α : Type} :
    ∀ (n : Nat) (l : List (String × HVal α)), sizeOf l ≤ n → ∀ (c : Nat),
    c ≤ (deepcopyD c l).2 ∧
    (∀ i ∈ idsD (deepcopyD c l).1, c ≤ i ∧ i < (deepcopyD c l).2) ∧
    eraseD (deepcopyD c l).1 = eraseD l := by
  intro n
  induction n with
  | zero => intro l hl; cases l <;> simp_all
  | succ m ih =>
    intro l hl c
    cases l with
    | nil => simp [deepcopyD_nil, idsD_nil]
    | cons hd rest =>
      obtain ⟨k, v⟩ := hd
      cases v with
      | leaf x =>
        have hrest : sizeOf rest ≤ m := by simp at hl; omega
        have hr := ih rest hrest c
        rw [deepcopyD_cons_leaf]
        refine ⟨hr.1, ?_, ?_⟩
        · intro i hi
          rw [idsD_cons_leaf] at hi
          exact hr.2.1 i hi
        · rw [eraseD_cons_leaf, eraseD_cons_leaf, hr.2.2]
      | dict j es =>
        have hes : sizeOf es ≤ m := by simp at hl; omega
        have hrest : sizeOf rest ≤ m := by simp at hl; omega
        have he := ih es hes c
        have hr := ih rest hrest ((deepcopyD c es).2 + 1)
        rw [deepcopyD_cons_dict]
        refine ⟨by omega, ?_, ?_⟩
        · intro i hi
          rw [idsD_cons_dict] at hi
          rcases List.mem_cons.mp hi with rfl | hi2
          · constructor
            · exact he.1
            · have := hr.1; omega
          · rcases List.mem_append.mp hi2 with hi3 | hi3
            · have h1 := he.2.1 i hi3
              have := hr.1
              omega
            · have h1 := hr.2.1 i hi3
              omega
        · rw [eraseD_cons_dict, eraseD_cons_dict, he.2.2, hr.2.2]

/-- The merge never decreases the allocation counter. -/
theorem mtr_counter_mono {α : Type} [DecidableEq α] :
    ∀ (n : Nat) (b : List (String × HVal α)), sizeOf b ≤ n →
    ∀ (rc : Bool) (p : List String) (c : Nat) (a : List (String × HVal α)),
    c ≤ (merge_dicts_tr rc p c a b).2.1 := by
  intro n
  induction n with
  | zero => intro b hb; cases b <;> simp_all
  | succ m ih =>
    intro b hb rc p c a
    cases b with
    | nil => simp [mtr_nil]
    | cons hd rest =>
      obtain ⟨k1, bv⟩ := hd
      have hrest : sizeOf rest ≤ m := by simp at hb; omega
      cases hl : lookupKeyH k1 a with
      | none =>
        cases bv with
        | leaf x => rw [mtr_cons_absent_leaf hl]; exact ih rest hrest rc p c _
        | dict j bes =>
          rw [mtr_cons_absent_dict hl]
          have hcp : c ≤ (deepcopyV c (HVal.dict j bes)).2 := by
            have hes : sizeOf bes ≤ m + 1 := by simp at hb; omega
            have := (deepcopyD_spec (m + 1) bes hes c).1
            simp only [deepcopyV]
            omega
          exact le_trans hcp (ih rest hrest rc p _ _)
      | some av =>
        cases av with
        | leaf x =>
          rw [mtr_cons_ndd hl (by simp [isDictH])]
          cases hpe : pyEq (eraseV (HVal.leaf x)) (eraseV bv) with
          | true => simp only [if_true]; exact ih rest hrest rc p c a
          | false =>
            simp only [Bool.false_eq_true, if_false]
            cases rc with
            | true => simp
            | false =>
              simp only [Bool.false_eq_true, if_false]
              exact ih rest hrest false p c _
        | dict i ad =>
          cases bv with
          | leaf y =>
            rw [mtr_cons_ndd hl (by simp [isDictH])]
            have hpe : pyEq (eraseV (HVal.dict i ad)) (eraseV (HVal.leaf y)) = false := by
              simp [eraseV, pyEq]
            rw [hpe]
            simp only [Bool.false_eq_true, if_false]
            cases rc with
            | true => simp
            | false =>
              simp only [Bool.false_eq_true, if_false]
              exact ih rest hrest false p c _
          | dict j bd =>
            have hbd : sizeOf bd ≤ m := by simp at hb; omega
            rw [mtr_cons_dd hl]
            have hin := ih bd hbd rc (p ++ [k1]) c ad
            cases he : (merge_dicts_tr rc (p ++ [k1]) c ad bd).2.2 with
            | some e => simpa using hin
            | none =>
              simp only []
              exact le_trans hin (ih rest hrest rc p _ _)

/-- The merge never touches the binding of a key absent from the source
entries' keys. -/
theorem mtr_lookup_stable {α : Type} [DecidableEq α] {k : String} :
    ∀ (b : List (String × HVal α)) (rc : Bool) (p : List String) (c : Nat)
      (a : List (String × HVal α)),
    (∀ kv ∈ b, kv.1 ≠ k) →
    lookupKeyH k (merge_dicts_tr rc p c a b).1 = lookupKeyH k a := by
  intro b
  induction b with
  | nil => intro rc p c a _; simp [mtr_nil]
  | cons hd rest ih =>
    intro rc p c a hkeys
    obtain ⟨k1, bv⟩ := hd
    have hk1 : k1 ≠ k := hkeys (k1, bv) (by simp)
    have hrest : ∀ kv ∈ rest, kv.1 ≠ k := fun kv hm => hkeys kv (by simp [hm])
    cases hl : lookupKeyH k1 a with
    | none =>
      cases bv with
      | leaf x =>
        rw [mtr_cons_absent_leaf hl, ih rc p c _ hrest, lookupH_setKeyH_ne hk1]
      | dict j bes =>
        rw [mtr_cons_absent_dict hl, ih rc p _ _ hrest, lookupH_setKeyH_ne hk1]
    | some av =>
      cases av with
      | leaf x =>
        rw [mtr_cons_ndd hl (by simp [isDictH])]
        cases hpe : pyEq (eraseV (HVal.leaf x)) (eraseV bv) with
        | true => simp only [if_true]; exact ih rc p c a hrest
        | false =>
          simp only [Bool.false_eq_true, if_false]
          cases rc with
          | true => simp
          | false =>
            simp only [Bool.false_eq_true, if_false]
            rw [ih false p c _ hrest, lookupH_setKeyH_ne hk1]
      | dict i ad =>
        cases bv with
        | leaf y =>
          rw [mtr_cons_ndd hl (by simp [isDictH])]
          have hpe : pyEq (eraseV (HVal.dict i ad)) (eraseV (HVal.leaf y)) = false := by
            simp [eraseV, pyEq]
          rw [hpe]
          simp only [Bool.false_eq_true, if_false]
          cases rc with
          | true => simp
          | false =>
            simp only [Bool.false_eq_true, if_false]
            rw [ih false p c _ hrest, lookupH_setKeyH_ne hk1]
        | dict j bd =>
          rw [mtr_cons_dd hl]
          cases he : (merge_dicts_tr rc (p ++ [k1]) c ad bd).2.2 with
          | some e => simp [lookupH_setKeyH_ne hk1]
          | none =>
            simp only []
            rw [ih rc p _ _ hrest, lookupH_setKeyH_ne hk1]

/-- A key absent from the target and bound in the source ends up bound, after
a merge that raised no conflict, to the imported value: a deep copy taken at
some counter `c1 ≥ c` when the source value is a dict, the source value
itself otherwise. -/
theorem mtr_absent_insert_aux {α : Type} [DecidableEq α] {k : String} {bv : HVal α} :
    ∀ (b : List (String × HVal α)) (rc : Bool) (p : List String) (c : Nat)
      (a : List (String × HVal α)),
    nodupKeys b → lookupKeyH k a = none → lookupKeyH k b = some bv →
    (merge_dicts_tr rc p c a b).2.2 = none →
    ∃ c1, c ≤ c1 ∧
      lookupKeyH k (merge_dicts_tr rc p c a b).1 = some (importVal c1 bv).1 := by
  intro b
  induction b with
  | nil => intro rc p c a _ _ hb; simp [lookupKeyH] at hb
  | cons hd rest ih =>
    intro rc p c a hnd ha hb hok
    obtain ⟨k1, bv1⟩ := hd
    obtain ⟨hdk, hndrest⟩ := nodupKeys_cons hnd
    by_cases hk : k1 = k
    · subst hk
      have hbv : bv1 = bv := by simpa [lookupKeyH] using hb
      subst hbv
      cases bv1 with
      | leaf x =>
        rw [mtr_cons_absent_leaf ha]
        refine ⟨c, Nat.le_refl c, ?_⟩
        rw [mtr_lookup_stable rest rc p c _ hdk, lookupH_setKeyH_self]
        simp [importVal, isDictH]
      | dict j bes =>
        rw [mtr_cons_absent_dict ha]
        refine ⟨c, Nat.le_refl c, ?_⟩
        rw [mtr_lookup_stable rest rc p _ _ hdk, lookupH_setKeyH_self]
        simp [importVal, isDictH]
    · have hbrest : lookupKeyH k rest = some bv := by
        simpa [lookupKeyH, hk] using hb
      cases hl : lookupKeyH k1 a with
      | none =>
        cases bv1 with
        | leaf x =>
          rw [mtr_cons_absent_leaf hl] at hok ⊢
          exact ih rc p c _ hndrest (by rw [lookupH_setKeyH_ne hk, ha]) hbrest hok
        | dict j bes =>
          rw [mtr_cons_absent_dict hl] at hok ⊢
          have hmono : c ≤ (deepcopyV c (HVal.dict j bes)).2 := by
            have := (deepcopyD_spec (sizeOf bes) bes (Nat.le_refl _) c).1
            simp only [deepcopyV]
            omega
          obtain ⟨c1, hc1, hlk⟩ :=
            ih rc p _ _ hndrest (by rw [lookupH_setKeyH_ne hk, ha]) hbrest hok
          exact ⟨c1, le_trans hmono hc1, hlk⟩
      | some av1 =>
        cases av1 with
        | leaf x =>
          rw [mtr_cons_ndd hl (by simp [isDictH])] at hok ⊢
          cases hpe : pyEq (eraseV (HVal.leaf x)) (eraseV bv1) with
          | true =>
            rw [hpe] at hok
            simp only [if_true] at hok ⊢
            exact ih rc p c a hndrest ha hbrest hok
          | false =>
            rw [hpe] at hok
            simp only [Bool.false_eq_true, if_false] at hok ⊢
            cases rc with
            | true => simp at hok
            | false =>
              simp only [Bool.false_eq_true, if_false] at hok ⊢
              exact ih false p c _ hndrest
                (by rw [lookupH_setKeyH_ne hk, ha]) hbrest hok
        | dict i ad =>
          cases bv1 with
          | leaf y =>
            rw [mtr_cons_ndd hl (by simp [isDictH])] at hok ⊢
            have hpe : pyEq (eraseV (HVal.dict i ad)) (eraseV (HVal.leaf y)) = false := by
              simp [eraseV, pyEq]
            rw [hpe] at hok ⊢
            simp only [Bool.false_eq_true, if_false] at hok ⊢
            cases rc with
            | true => simp at hok
            | false =>
              simp only [Bool.false_eq_true, if_false] at hok ⊢
              exact ih false p c _ hndrest
                (by rw [lookupH_setKeyH_ne hk, ha]) hbrest hok
          | dict j bd =>
            rw [mtr_cons_dd hl] at hok ⊢
            cases he : (merge_dicts_tr rc (p ++ [k1]) c ad bd).2.2 with
            | some e => rw [he] at hok; simp at hok
            | none =>
              rw [he] at hok
              have hmono : c ≤ (merge_dicts_tr rc (p ++ [k1]) c ad bd).2.1 :=
                mtr_counter_mono (sizeOf bd) bd (Nat.le_refl _) rc (p ++ [k1]) c ad
              obtain ⟨c1, hc1, hlk⟩ :=
                ih rc p _ _ hndrest (by rw [lookupH_setKeyH_ne hk, ha]) hbrest hok
              exact ⟨c1, le_trans hmono hc1, hlk⟩

/-- Mutating a dict object whose identity does not occur in a tree leaves the
tree unchanged. -/
theorem setInObjD_not_mem {α : Type} :
    ∀ (n : Nat) (l : List (String × HVal α)), sizeOf l ≤ n →
    ∀ (i : Nat) (ky : String) (w : HVal α), i ∉ idsD l →
    setInObjD i ky w l = l := by
  intro n
  induction n with
  | zero => intro l hl; cases l <;> simp_all
  | succ m ih =>
    intro l hl i ky w hmem
    cases l with
    | nil => rw [setInObjD_nil]
    | cons hd rest =>
      obtain ⟨k, v⟩ := hd
      cases v with
      | leaf x =>
        have hrest : sizeOf rest ≤ m := by simp at hl; omega
        rw [idsD_cons_leaf] at hmem
        rw [setInObjD_cons_leaf, ih rest hrest i ky w hmem]
      | dict j es =>
        have hes : sizeOf es ≤ m := by simp at hl; omega
        have hrest : sizeOf rest ≤ m := by simp at hl; omega
        rw [idsD_cons_dict] at hmem
        simp only [List.mem_cons, List.mem_append] at hmem
        push_neg at hmem
        obtain ⟨hij, hes2, hrest2⟩ := hmem
        rw [setInObjD_cons_dict, if_neg (Ne.symm hij), ih es hes i ky w hes2,
          ih rest hrest i ky w hrest2]

/-- Claim C5: a key present in the source and absent from the target is
inserted by the merge (under either policy, whenever the merge raises no
conflict): a non-dict value is inserted as-is, while a dict value is
inserted as a deep copy — same underlying value, but all of its object
identities fresh (at least `c`) and in particular absent from the source
tree, so the new substructure aliases nothing. -/
theorem merge_absent_key_insert {α : Type} [DecidableEq α]
    {a b : List (String × HVal α)} {k : String} {bv : HVal α} (rc : Bool)
    (c : Nat) (hnd : nodupKeys b) (ha : lookupKeyH k a = none)
    (hb : lookupKeyH k b = some bv)
    (hok : (merge_dicts_tr rc [] c a b).2.2 = none)
    (hfresh : ∀ i ∈ idsD b, i < c) :
    ∃ t, lookupKeyH k (merge_dicts_tr rc [] c a b).1 = some t ∧
      (isDictH bv = false → t = bv) ∧
      (isDictH bv = true → eraseV t = eraseV bv ∧
        ∀ i ∈ idsV t, c ≤ i ∧ i ∉ idsD b) := by
  obtain ⟨c1, hc1, hlk⟩ := mtr_absent_insert_aux b rc [] c a hnd ha hb hok
  refine ⟨(importVal c1 bv).1, hlk, ?_, ?_⟩
  · intro hbv
    simp [importVal, hbv]
  · intro hbv
    obtain ⟨j, bes, rfl⟩ : ∃ j bes, bv = HVal.dict j bes := by
      cases bv with
      | leaf x => simp [isDictH] at hbv
      | dict j bes => exact ⟨j, bes, rfl⟩
    have hspec := deepcopyD_spec (sizeOf bes) bes (Nat.le_refl _) c1
    constructor
    · simp only [importVal, isDictH, if_true, deepcopyV, eraseV]
      rw [hspec.2.2]
    · intro i hi
      have hge : c ≤ i := by
        simp only [importVal, isDictH, if_true, deepcopyV, idsV] at hi
        rcases List.mem_cons.mp hi with rfl | hi2
        · omega
        · have := hspec.2.1 i hi2
          omega
      refine ⟨hge, fun hmem => ?_⟩
      have := hfresh i hmem
      omega

/-- Witness for C5 at `A = {}`, `B = {"x": {"y": 1}}` (the dict object of
`B["x"]` carries identity 5), counter 10. -/
theorem merge_absent_key_insert_witness :
    nodupKeys [("x", HVal.dict 5 [("y", HVal.leaf (1 : Nat))])] ∧
    lookupKeyH "x" ([] : List (String × HVal Nat)) = none ∧
    lookupKeyH "x" [("x", HVal.dict 5 [("y", HVal.leaf (1 : Nat))])] =
      some (HVal.dict 5 [("y", HVal.leaf 1)]) ∧
    (merge_dicts_tr false [] 10 ([] : List (String × HVal Nat))
        [("x", HVal.dict 5 [("y", HVal.leaf 1)])]).2.2 = none ∧
    (∀ i ∈ idsD [("x", HVal.dict 5 [("y", HVal.leaf (1 : Nat))])], i < 10) ∧
    (∃ t, lookupKeyH "x" (merge_dicts_tr false [] 10 ([] : List (String × HVal Nat))
        [("x", HVal.dict 5 [("y", HVal.leaf 1)])]).1 = some t ∧
      (isDictH (HVal.dict 5 [("y", HVal.leaf (1 : Nat))]) = false →
        t = HVal.dict 5 [("y", HVal.leaf 1)]) ∧
      (isDictH (HVal.dict 5 [("y", HVal.leaf (1 : Nat))]) = true →
        eraseV t = eraseV (HVal.dict 5 [("y", HVal.leaf 1)]) ∧
        ∀ i ∈ idsV t, 10 ≤ i ∧
          i ∉ idsD [("x", HVal.dict 5 [("y", HVal.leaf (1 : Nat))])])) :=
  ⟨by simp [nodupKeys], rfl, rfl,
   by simp [mtr_cons, mtr_nil, lookupKeyH, importVal, isDictH, deepcopyV,
     deepcopyD_cons_leaf, deepcopyD_nil, setKeyH],
   by simp [idsD_cons_dict, idsD_cons_leaf, idsD_nil],
   merge_absent_key_insert false 10 (by simp [nodupKeys]) rfl rfl
     (by simp [mtr_cons, mtr_nil, lookupKeyH, importVal, isDictH, deepcopyV,
       deepcopyD_cons_leaf, deepcopyD_nil, setKeyH])
     (by simp [idsD_cons_dict, idsD_cons_leaf, idsD_nil])⟩

/-- Counterexample to claim C1 as stated.  Merging
`B = {"k": {"y": 1}}` (where the dict object `B["k"]` has identity 7) into
`A = {"k": 0}` under Overwrite takes the conflict-overwrite path
`a[key] = b[key]`, which aliases the source dict instead of deep-copying it:
object 7 is reachable from the merged result, and mutating it
(`R["k"]["y"] = 99`) mutates `B` — `B` is no longer equal (even as a plain
value) to what it was. -/
theorem merge_conflict_overwrite_aliases :
    7 ∈ idsD (merge_dicts_tr false [] 100
        [("k", HVal.leaf (0 : Nat))]
        [("k", HVal.dict 7 [("y", HVal.leaf 1)])]).1 ∧
    setInObjD 7 "y" (HVal.leaf (99 : Nat))
        [("k", HVal.dict 7 [("y", HVal.leaf 1)])] ≠
      [("k", HVal.dict 7 [("y", HVal.leaf 1)])] := by
  constructor
  · simp [mtr_cons, mtr_nil, lookupKeyH, setKeyH, eraseV, pyEq,
      eraseD_cons_leaf, eraseD_nil, idsD_cons_dict, idsD_cons_leaf, idsD_nil]
  · simp [setInObjD_cons_dict, setInObjD_cons_leaf, setInObjD_nil, setKeyH]

/-- Claim C1 (amended): mapping-typed values introduced from the source via
the absent-key insertion path are independent copies — mutating any dict
object of the inserted copy leaves the source tree unchanged.  (On the
conflict-overwrite path, where a source mapping replaces a non-mapping
target value, the source mapping is instead installed by reference, so
mutating the merged tree there can mutate the source; see the
counterexample.) -/
theorem merge_absent_dict_independent {α : Type} [DecidableEq α]
    {a b : List (String × HVal α)} {k : String} {j : Nat}
    {bes : List (String × HVal α)} (rc : Bool) (c : Nat)
    (hnd : nodupKeys b) (ha : lookupKeyH k a = none)
    (hb : lookupKeyH k b = some (.dict j bes))
    (hok : (merge_dicts_tr rc [] c a b).2.2 = none)
    (hfresh : ∀ i ∈ idsD b, i < c) :
    ∃ t, lookupKeyH k (merge_dicts_tr rc [] c a b).1 = some t ∧
      eraseV t = eraseV (.dict j bes) ∧
      ∀ i ∈ idsV t, ∀ (ky : String) (w : HVal α), setInObjD i ky w b = b := by
  obtain ⟨c1, hc1, hlk⟩ := mtr_absent_insert_aux b rc [] c a hnd ha hb hok
  have hspec := deepcopyD_spec (sizeOf bes) bes (Nat.le_refl _) c1
  refine ⟨(importVal c1 (.dict j bes)).1, hlk, ?_, ?_⟩
  · simp only [importVal, isDictH, if_true, deepcopyV, eraseV]
    rw [hspec.2.2]
  · intro i hi ky w
    have hge : c ≤ i := by
      simp only [importVal, isDictH, if_true, deepcopyV, idsV] at hi
      rcases List.mem_cons.mp hi with rfl | hi2
      · omega
      · have := hspec.2.1 i hi2
        omega
    refine setInObjD_not_mem (sizeOf b) b (Nat.le_refl _) i ky w (fun hmem => ?_)
    have := hfresh i hmem
    omega

/-- Witness for the amended C1 at `A = {}`, `B = {"x": {"y": 1}}` (object
identity 5 on `B["x"]`), counter 10. -/
theorem merge_absent_dict_independent_witness :
    nodupKeys [("x", HVal.dict 5 [("y", HVal.leaf (1 : Nat))])] ∧
    lookupKeyH "x" ([] : List (String × HVal Nat)) = none ∧
    lookupKeyH "x" [("x", HVal.dict 5 [("y", HVal.leaf (1 : Nat))])] =
      some (HVal.dict 5 [("y", HVal.leaf 1)]) ∧
    (merge_dicts_tr false [] 10 ([] : List (String × HVal Nat))
        [("x", HVal.dict 5 [("y", HVal.leaf 1)])]).2.2 = none ∧
    (∀ i ∈ idsD [("x", HVal.dict 5 [("y", HVal.leaf (1 : Nat))])], i < 10) ∧
    (∃ t, lookupKeyH "x" (merge_dicts_tr false [] 10 ([] : List (String × HVal Nat))
        [("x", HVal.dict 5 [("y", HVal.leaf 1)])]).1 = some t ∧
      eraseV t = eraseV (HVal.dict 5 [("y", HVal.leaf (1 : Nat))]) ∧
      ∀ i ∈ idsV t, ∀ (ky : String) (w : HVal Nat),
        setInObjD i ky w [("x", HVal.dict 5 [("y", HVal.leaf 1)])] =
          [("x", HVal.dict 5 [("y", HVal.leaf 1)])]) :=
  ⟨by simp [nodupKeys], rfl, rfl,
   by simp [mtr_cons, mtr_nil, lookupKeyH, importVal, isDictH, deepcopyV,
     deepcopyD_cons_leaf, deepcopyD_nil, setKeyH],
   by simp [idsD_cons_dict, idsD_cons_leaf, idsD_nil],
   merge_absent_dict_independent false 10 (by simp [nodupKeys]) rfl rfl
     (by simp [mtr_cons, mtr_nil, lookupKeyH, importVal, isDictH, deepcopyV,
       deepcopyD_cons_leaf, deepcopyD_nil, setKeyH])
     (by simp [idsD_cons_dict, idsD_cons_leaf, idsD_nil])⟩

end Molecule
